import Mathlib

/-!
Shallow embedding of `src/App.py` (QtProgress): the snapshot-reconciliation
engine of `ThisAppMainWindow` (`update_table`, `update_row`, `remove_row`,
`hide_all_rows`, `ignore_command`) together with the pure metric function
`percentage` and the rate/ETA rendering block of `update_row`.

Conventions of the embedding:
* Python `int` is modelled as `Int`; Python `float` (timestamps, the results
  of true division) is idealised as `ℚ`, exact rational arithmetic standing
  in for binary floating point.
* `None` is modelled as `Option.none`.
* The ordered dict `ThisAppMainWindow.proc_files` is modelled as an
  insertion-ordered association list `Store`.
* GUI side effects (`QTableWidget` cell updates, row insertion/removal,
  highlighting) are modelled as an emitted list of `Change` values.
* A reconcile cycle uses a single time value `now : ℚ`, standing in for the
  (essentially equal) `time.time()` calls made within one cycle.
-/

namespace QtProgress

/-- `KEEP_COUNTDOWN` constant, App.py line 36. -/
def KEEP_COUNTDOWN : Int := 120

/-- `UPDATE_MSEC` constant, App.py line 32. -/
def UPDATE_MSEC : Int := 2000

/-! ### Decimal rendering, mirroring Python string formatting -/

/-- The ten decimal digit characters. -/
def digitChars : List Char := ['0', '1', '2', '3', '4', '5', '6', '7', '8', '9']

/-- The decimal digit character for `n` (meaningful for `n < 10`). -/
def digitChar (n : Nat) : Char := digitChars.getD n '9'

/-- Digits of a natural number, most significant first, onto `acc`;
structural recursion on a fuel argument (any fuel above the digit count
gives the digits of `n`). -/
def natDigits : Nat → Nat → List Char → List Char
  | 0, _, acc => acc
  | fuel + 1, n, acc =>
    if n < 10 then digitChar n :: acc
    else natDigits fuel (n / 10) (digitChar (n % 10) :: acc)

/-- Python `str` of a natural number. -/
def natToString (n : Nat) : String := String.mk (natDigits (n + 1) n [])

/-- Python `str` of an integer. -/
def intToString (i : Int) : String :=
  if i < 0 then "-" ++ natToString i.natAbs else natToString i.toNat

/-- Python `f-string` formatting with format spec `02d`. -/
def pad2 (i : Int) : String :=
  if 0 ≤ i ∧ i < 10 then "0" ++ intToString i else intToString i

/-- Python `int(...)` applied to a float/rational: truncation toward zero. -/
def pyTrunc (q : ℚ) : Int := if q < 0 then ⌈q⌉ else ⌊q⌋

/-- Sign prefix of Python fixed-point formatting of `q` (`.1f`). -/
def fmt1sign (q : ℚ) : String := if q < 0 then "-" else ""

/-- Integer part (of the absolute value, after rounding to one decimal)
of Python `.1f` formatting of `q`, idealised over exact rationals. -/
def fmt1int (q : ℚ) : Nat := (round (|q| * 10)).toNat / 10

/-- The single decimal digit of Python `.1f` formatting of `q`,
idealised over exact rationals. -/
def fmt1dig (q : ℚ) : Nat := (round (|q| * 10)).toNat % 10

/-- Python `f-string` formatting of a float with format spec `.1f`,
idealised over exact rationals (floating-point representation error and the
half-even tie rule of binary floats are below the resolution of the claims
checked here). -/
def pyFloatFmt1 (q : ℚ) : String :=
  fmt1sign q ++ natToString (fmt1int q) ++ "." ++ String.mk [digitChar (fmt1dig q)]

/-- Python `str.replace` specialised to pattern `".0"` and empty
replacement, as used in `percentage` (App.py line 139): every occurrence of
`.0` is removed, scanning left to right and continuing after each removal. -/
def dropDotZero : List Char → List Char
  | [] => []
  | [c] => [c]
  | c1 :: c2 :: rest =>
    if c1 = '.' ∧ c2 = '0' then dropDotZero rest
    else c1 :: dropDotZero (c2 :: rest)

/-- `(...).replace('.0', '')` on a string. -/
def pyReplaceDotZero (s : String) : String := String.mk (dropDotZero s.data)

/-- `percentage` from App.py lines 128–139. -/
def percentage (n : Option Int) (d : Int) : String :=
  match n with
  | none => "?"
  | some n =>
    if d = 0 then
      if n = 0 then "0%" else "?"
    else
      pyReplaceDotZero (pyFloatFmt1 (100 * (n : ℚ) / (d : ℚ)) ++ "%")

/-- Rendering of a percent value as the specification words it: one decimal
place, with a *trailing* `.0` dropped (so an integral percent like `50.0`
renders as `50%`). -/
def specPercentRender (q : ℚ) : String :=
  if fmt1dig q = 0 then fmt1sign q ++ natToString (fmt1int q) ++ "%"
  else fmt1sign q ++ natToString (fmt1int q) ++ "." ++
        String.mk [digitChar (fmt1dig q)] ++ "%"

/-- The specification's description of `percent(position, size)`
(spec §4.2): `?` on unknown position; `0%` when both are zero; `?` when the
size is zero and the position nonzero; otherwise `100 * position / size`
with one decimal place, trailing `.0` dropped. -/
def percent_spec (n : Option Int) (d : Int) : String :=
  match n with
  | none => "?"
  | some n =>
    if d = 0 then
      if n = 0 then "0%" else "?"
    else
      specPercentRender (100 * (n : ℚ) / (d : ℚ))

/-- Python true division raising `ZeroDivisionError` on a zero denominator. -/
def pyTrueDiv (a b : ℚ) : Except String ℚ :=
  if b = 0 then Except.error "ZeroDivisionError" else Except.ok (a / b)

/-- `percentage` with the fallible Python evaluation made explicit: the one
division `100.0 * n / d` is performed through `pyTrueDiv`, which raises on a
zero denominator.  Everything else in the function body is total. -/
def percentageChecked (n : Option Int) (d : Int) : Except String String :=
  match n with
  | none => Except.ok "?"
  | some n =>
    if d = 0 then
      if n = 0 then Except.ok "0%" else Except.ok "?"
    else
      match pyTrueDiv (100 * (n : ℚ)) (d : ℚ) with
      | Except.error e => Except.error e
      | Except.ok p => Except.ok (pyReplaceDotZero (pyFloatFmt1 p ++ "%"))

/-! ### The tracked-file store -/

/-- `FdDevIno` (App.py line 54): file descriptor number, device id, inode. -/
abbrev FdDevIno := Int × Int × Int

/-- One file observation as produced by `get_procs` (App.py lines 96–120):
link target name, byte position, size.  (In `get_procs` the position read
from `/proc` is always an `int`; `pos` only becomes `None` later, inside the
store.) -/
structure Obs where
  name : String
  pos : Int
  size : Int
deriving Repr, DecidableEq

/-- `Process` (App.py lines 58–65): pid, command name and the per-cycle
file-descriptor map (modelled as an ordered association list). -/
structure Process where
  pid : Int
  command : String
  files : List (FdDevIno × Obs)
deriving Repr, DecidableEq

/-- `PidCommandFdDevInoName` (App.py line 143): the identity key
`(pid, command, fd, dev, ino, name)` of one tracked file. -/
abbrev It := Int × String × Int × Int × Int × String

/-- `File` (App.py lines 40–49): one tracked record. -/
structure File where
  name : String
  pos : Option Int
  size : Int
  first_pos : Int
  first_size : Int
  first_timestamp : ℚ
  table_row : Option Int
  keep_countdown : Int
deriving Repr, DecidableEq

/-- `File.__init__` (App.py lines 41–49). -/
def File.mkNew (name : String) (pos size : Int) (timestamp : ℚ) : File :=
  { name := name, pos := some pos, size := size, first_pos := pos,
    first_size := size, first_timestamp := timestamp,
    table_row := none, keep_countdown := KEEP_COUNTDOWN }

/-- The ordered dict `ThisAppMainWindow.proc_files` (App.py line 147). -/
abbrev Store := List (It × File)

/-- Dict lookup `proc_files.get(it)`. -/
def lookupF : Store → It → Option File
  | [], _ => none
  | p :: m, k => if p.1 = k then some p.2 else lookupF m k

/-- In-place mutation of the record stored under an existing key
(`proc_file.field = ...` on the object held in the dict). -/
def setF : Store → It → File → Store
  | [], _, _ => []
  | p :: m, k, f => (if p.1 = k then (k, f) else p) :: setF m k f

/-- Dict deletion `del proc_files[it]`. -/
def eraseF : Store → It → Store
  | [], _ => []
  | p :: m, k => if p.1 = k then eraseF m k else p :: eraseF m k

/-- Mutation applied to every value of the dict
(`for pf in proc_files.values(): ...` patterns that touch each record). -/
def mapVals (g : File → File) (m : Store) : Store :=
  m.map (fun p => (p.1, g p.2))

/-- The row shift in `update_row` (App.py lines 261–263): every record
holding a table row moves down by one when a new row is inserted at the
top. -/
def bumpRow (f : File) : File :=
  match f.table_row with
  | some r => { f with table_row := some (r + 1) }
  | none => f

/-- The row compaction of `remove_row` (App.py lines 423–425): every record
whose row is after the removed one moves up by one. -/
def dropAbove (row : Int) (f : File) : File :=
  match f.table_row with
  | some q => if row < q then { f with table_row := some (q - 1) } else f
  | none => f

/-- `remove_row` (App.py lines 420–425): the store bookkeeping after a table
row has been removed. -/
def remove_row (m : Store) (row : Int) : Store := mapVals (dropAbove row) m

/-! ### Rendering (`update_row` cell contents) -/

/-- Modelled from the spec: `to_si` comes from the external
`engineering_notation` dependency, which is not part of this repository;
the spec fixes its output only through the scenario rendering
(rate `50B/s` for fifty bytes per second), i.e. an integral value renders as
its plain decimal digits.  Non-integral values are rendered here as
`num/den`; no claim evaluates that case. -/
def to_si (q : ℚ) : String :=
  if q.den = 1 then intToString q.num
  else intToString q.num ++ "/" ++ natToString q.den

/-- The rate / remaining-time block of `update_row` (App.py lines 304–316):
both cells default to `-`; with a present position and a nonzero elapsed
time, the byte rate `(pos - first_pos) / elapsed` is rendered (with SI
suffix and `B/s`) only if positive, and then the remaining time
`int((size - pos) / rate)` is rendered as `minutes:seconds` (seconds
zero-padded to two digits) only if `size - pos` is positive. -/
def rate_more (f : File) (now : ℚ) : String × String :=
  match f.pos with
  | none => ("-", "-")
  | some p =>
    let elapsed := now - f.first_timestamp
    if elapsed = 0 then ("-", "-")
    else
      let bytes_per_sec : ℚ := ((p : ℚ) - (f.first_pos : ℚ)) / elapsed
      if 0 < bytes_per_sec then
        let rate := to_si bytes_per_sec ++ "B/s"
        let more_bytes := f.size - p
        if 0 < more_bytes then
          let s := pyTrunc ((more_bytes : ℚ) / bytes_per_sec)
          (rate, intToString (Int.fdiv s 60) ++ ":" ++ pad2 (Int.fmod s 60))
        else (rate, "-")
      else ("-", "-")

/-- The claim-relevant cells of one rendered row (`update_row`,
App.py lines 266–348): the closed flag (grey rendering), the percent cell,
the rate cell and the remaining-time cell.  The timestamp, position, size,
command and file-name cells are plain presentations of the corresponding
raw fields and are not modelled. -/
structure RowRender where
  row : Int
  closed : Bool
  percent : String
  rate : String
  more_time : String
deriving Repr, DecidableEq

/-- Rendering of a record into its table row, from the current field values
at render time (`update_row`, App.py lines 266–348). -/
def render (f : File) (row : Int) (now : ℚ) : RowRender :=
  { row := row
    closed := f.pos.isNone
    percent := if f.pos.isNone then "-" else percentage f.pos f.size
    rate := (rate_more f now).1
    more_time := (rate_more f now).2 }

/-- One display change emitted towards the Qt table: row insertion at an
index, a full row update (carrying the record state and time from which the
cells are rendered via `render`), row removal, and (un)highlighting. -/
inductive Change where
  | insertRow : Int → Change
  | updateRow : It → File → Int → ℚ → Change
  | removeRow : Int → Change
  | hiliteRow : Option Int → Bool → Change
deriving Repr, DecidableEq

/-! ### The reconcile cycle -/

/-- `update_row` (App.py lines 251–264 plus the cell updates): refresh the
countdown, insert a row at the top if the record has none (shifting every
existing row down by one), and update the row's cells.  Returns the new
store and the emitted display changes. -/
def update_row (m : Store) (k : It) (now : ℚ) : Store × List Change :=
  match lookupF m k with
  | none => (m, [])
  | some f0 =>
    let f1 : File := { f0 with keep_countdown := KEEP_COUNTDOWN }
    match f1.table_row with
    | some row => (setF m k f1, [Change.updateRow k f1 row now])
    | none =>
      let f2 : File := { f1 with table_row := some 0 }
      (setF (mapVals bumpRow m) k f2,
       [Change.insertRow 0, Change.updateRow k f2 0 now])

/-- Python `set.add` on an identity set (modelled as a duplicate-free
list). -/
def addKey (l : List It) (k : It) : List It := if k ∈ l then l else l ++ [k]

/-- The observations of one snapshot after the ignore filter
(`update_table`, App.py lines 354–359): processes whose command is ignored
are skipped; each remaining `(fd, dev, ino) -> File` entry yields the
identity `(pid, command, fd, dev, ino, name)` with its observation. -/
def observations (ignored : List String) (procs : List Process) : List (It × Obs) :=
  (procs.filter (fun p => decide (p.command ∉ ignored))).flatMap
    (fun p => p.files.map
      (fun fo => ((p.pid, p.command, fo.1.1, fo.1.2.1, fo.1.2.2, fo.2.name), fo.2)))

/-- The mutable state of one `update_table` cycle: the store, the shrinking
`closed` candidate set (kept in key order; Python iterates it in
unspecified set order, and the closed pass is insensitive to that order),
the `hilite` set of this cycle, and the changes emitted so far. -/
structure Cycle where
  store : Store
  closedKeys : List It
  hilite : List It
  changes : List Change
deriving Repr

/-- One iteration of the observation loop of `update_table`
(App.py lines 358–377): discard the identity from the closed candidates;
insert unseen identities without any display change; do nothing if position
and size are both unchanged; otherwise store the new position/size, run
`update_row`, and add the record to this cycle's highlight set. -/
def observe_one (now : ℚ) (c : Cycle) (x : It × Obs) : Cycle :=
  let k := x.1
  let o := x.2
  let closedKeys := c.closedKeys.filter (fun j => decide (j ≠ k))
  match lookupF c.store k with
  | none =>
    { c with closedKeys := closedKeys,
             store := c.store ++ [(k, File.mkNew o.name o.pos o.size now)] }
  | some f =>
    if f.pos = some o.pos ∧ f.size = o.size then
      { c with closedKeys := closedKeys }
    else
      let st1 := setF c.store k { f with pos := some o.pos, size := o.size }
      let ur := update_row st1 k now
      { store := ur.1, closedKeys := closedKeys,
        hilite := addKey c.hilite k, changes := c.changes ++ ur.2 }

/-- One iteration of the closed loop of `update_table`
(App.py lines 380–391): an identity absent from the snapshot is deleted
outright if it has no table row; left untouched if its position is already
absent; otherwise its position becomes absent, `update_row` runs (row kept,
countdown refreshed, greyed cells re-rendered) and it joins the highlight
set. -/
def close_one (now : ℚ) (c : Cycle) (k : It) : Cycle :=
  match lookupF c.store k with
  | none => c
  | some f =>
    match f.table_row with
    | none => { c with store := eraseF c.store k }
    | some _ =>
      if f.pos = none then c
      else
        let st1 := setF c.store k { f with pos := none }
        let ur := update_row st1 k now
        { c with store := ur.1, hilite := addKey c.hilite k,
                 changes := c.changes ++ ur.2 }

/-- One iteration of the decay loop of `update_table`
(App.py lines 397–409): a record with a table row has its countdown
decremented; when the countdown is no longer positive the row is retracted
(`table_row` cleared, table row removed, later rows compacted via
`remove_row`), while the record itself stays in the store. -/
def decay_one (acc : Store × List Change) (k : It) : Store × List Change :=
  match lookupF acc.1 k with
  | none => acc
  | some f =>
    match f.table_row with
    | none => acc
    | some row =>
      let f1 : File := { f with keep_countdown := f.keep_countdown - 1 }
      if 0 < f1.keep_countdown then (setF acc.1 k f1, acc.2)
      else
        (remove_row (setF acc.1 k { f1 with table_row := none }) row,
         acc.2 ++ [Change.removeRow row])

/-- `proc_file.table_row` as read by the highlight pass for a member of a
(possibly stale) highlight set; a record deleted from the store was deleted
with `table_row = None`, which this lookup reproduces. -/
def rowOfKey (m : Store) (k : It) : Option Int := (lookupF m k).bind File.table_row

/-- The highlight adjustment of `update_table` (App.py lines 412–415):
un-highlight rows highlighted last cycle but not this one, highlight this
cycle's rows. -/
def hiliteChanges (m : Store) (last hil : List It) : List Change :=
  (last.filter (fun j => decide (j ∉ hil))).map
      (fun j => Change.hiliteRow (rowOfKey m j) false)
    ++ hil.map (fun j => Change.hiliteRow (rowOfKey m j) true)

/-- The engine state held by `ThisAppMainWindow` between cycles: the store,
the previous cycle's highlight set, and the ignore set
(`IGNORED_COMMANDS`). -/
structure AppState where
  proc_files : Store
  last_hilite : List It
  ignored : List String
deriving Repr

/-- `update_table` (App.py lines 350–418), one reconcile cycle over a
snapshot: the observation loop, the closed loop over the identities that
vanished, the decay loop, and the highlight adjustment.  Returns the new
state and the ordered display change set. -/
def update_table (s : AppState) (procs : List Process) (now : ℚ) :
    AppState × List Change :=
  let obs := observations s.ignored procs
  let c0 : Cycle := { store := s.proc_files,
                      closedKeys := s.proc_files.map Prod.fst,
                      hilite := [], changes := [] }
  let c1 := obs.foldl (observe_one now) c0
  let c2 := c1.closedKeys.foldl (close_one now) c1
  let d := (c2.store.map Prod.fst).foldl decay_one (c2.store, [])
  ({ proc_files := d.1, last_hilite := c2.hilite, ignored := s.ignored },
   c2.changes ++ d.2 ++ hiliteChanges d.1 s.last_hilite c2.hilite)

/-- `hide_all_rows` (App.py lines 444–452): drop every table row, clear the
previous highlight set, keep every record and the ignore set. -/
def hide_all_rows (s : AppState) : AppState :=
  { proc_files := mapVals (fun f => { f with table_row := none }) s.proc_files,
    last_hilite := [], ignored := s.ignored }

/-- One iteration of the retraction loop of `ignore_command`
(App.py lines 456–465): a visible record whose identity's command matches
loses its row, and later rows are compacted. -/
def ignore_retract (cmd : String) (m : Store) (k : It) : Store :=
  match lookupF m k with
  | none => m
  | some f =>
    match f.table_row with
    | none => m
    | some row =>
      if k.2.1 = cmd then remove_row (setF m k { f with table_row := none }) row
      else m

/-- `ignore_command` (App.py lines 454–466): add the command to the ignore
set and retract (clear row, compact later rows) every visible record whose
identity carries that command. -/
def ignore_command (s : AppState) (cmd : String) : AppState :=
  { proc_files :=
      (s.proc_files.map Prod.fst).foldl (ignore_retract cmd) s.proc_files
    last_hilite := s.last_hilite
    ignored := if cmd ∈ s.ignored then s.ignored else s.ignored ++ [cmd] }

/-- `unignore` (App.py lines 468–471): empty the ignore set. -/
def unignore (s : AppState) : AppState := { s with ignored := [] }

/-- The table rows currently claimed by records of the store, in store
order. -/
def rowsOf (m : Store) : List Int := m.filterMap (fun p => p.2.table_row)

/-- A list of rows that is pairwise distinct and lies in `0 .. length-1`
(with distinctness this makes it exactly that contiguous range). -/
def RowInvList (L : List Int) : Prop :=
  L.Nodup ∧ ∀ r ∈ L, 0 ≤ r ∧ r < L.length

/-- The row-slot invariant: the claimed rows are pairwise distinct and all
lie in `0 .. k-1` where `k` is the number of visible records (with
distinctness this makes them exactly that contiguous range). -/
def RowInv (m : Store) : Prop := RowInvList (rowsOf m)

/-- `g` agrees with `f` on every field except possibly the *value* of an
assigned table row (row shifts); in particular visibility (`table_row` being
`none` or not) is preserved.  Reconcile steps acting on *other* identities
affect a record at most in this way. -/
def rowOnly (f g : File) : Prop :=
  g.name = f.name ∧ g.pos = f.pos ∧ g.size = f.size ∧ g.first_pos = f.first_pos ∧
  g.first_size = f.first_size ∧ g.first_timestamp = f.first_timestamp ∧
  g.keep_countdown = f.keep_countdown ∧ (g.table_row = none ↔ f.table_row = none)

/-- How the store entry of a fixed identity can evolve under reconcile steps
that act on other identities: it stays absent, or stays present with at most
a row shift (`rowOnly`). -/
def entryTweak (a b : Option File) : Prop :=
  (a = none ∧ b = none) ∨ ∃ f g, a = some f ∧ b = some g ∧ rowOnly f g

/-- At most one record per identity (the dict-key property of
`proc_files`). -/
def NodupKeys (m : Store) : Prop := (m.map Prod.fst).Nodup

/-- The record stored under `k`, if any, holds no table row. -/
def rowNoneAt (m : Store) (k : It) : Prop :=
  ∀ g, lookupF m k = some g → g.table_row = none

/-- The record stored under `k`, if any, has an absent (closed) position. -/
def posNoneAt (m : Store) (k : It) : Prop :=
  ∀ g, lookupF m k = some g → g.pos = none

/-- The record stored under `k`, if any, has position `v`. -/
def posAt (m : Store) (k : It) (v : Option Int) : Prop :=
  ∀ g, lookupF m k = some g → g.pos = v

/-! ### A concrete execution (example fixtures)

One process (`pid` 1, command `cp`) holding one file `f` (fd 3, device 1,
inode 2) of size 1000: first observed at time 0 with position 0, then at
time 10 with position 500, then vanished at time 20, then re-observed at
time 30 with position 700. -/

def exIt : It := (1, "cp", 3, 1, 2, "f")

def exProcs1 : List Process :=
  [{ pid := 1, command := "cp", files := [((3, 1, 2), { name := "f", pos := 0, size := 1000 })] }]

def exProcs2 : List Process :=
  [{ pid := 1, command := "cp", files := [((3, 1, 2), { name := "f", pos := 500, size := 1000 })] }]

def exProcs4 : List Process :=
  [{ pid := 1, command := "cp", files := [((3, 1, 2), { name := "f", pos := 700, size := 1000 })] }]

def exState0 : AppState := { proc_files := [], last_hilite := [], ignored := [] }

def exState1 : AppState := (update_table exState0 exProcs1 0).1

def exState2 : AppState := (update_table exState1 exProcs2 10).1

def exState3 : AppState := (update_table exState2 [] 20).1

def exState4 : AppState := (update_table exState3 exProcs4 30).1

/-- The record state carried by the update-row change of the second example
cycle (position 500 of 1000, anchors from time 0, freshly assigned row 0,
refreshed countdown). -/
def exFile2 : File :=
  { name := "f", pos := some 500, size := 1000, first_pos := 0,
    first_size := 1000, first_timestamp := 0, table_row := some 0,
    keep_countdown := 120 }

/-- `g` is the result of the observation update of `f` by `o` followed by
`update_row`: position and size taken from the observation, anchors and
name untouched, countdown refreshed, and a table row held (assigned now if
it was absent). -/
def updatedFrom (f : File) (o : Obs) (g : File) : Prop :=
  g.name = f.name ∧ g.pos = some o.pos ∧ g.size = o.size ∧
  g.first_pos = f.first_pos ∧ g.first_size = f.first_size ∧
  g.first_timestamp = f.first_timestamp ∧
  (∃ r, g.table_row = some r) ∧ g.keep_countdown = KEEP_COUNTDOWN

/-! ### Lemmas about the decimal rendering -/

theorem digitChar_mem (n : Nat) : digitChar n ∈ digitChars := by
  by_cases h : n < 10
  · interval_cases n <;> decide
  · have hl : digitChars.length ≤ n := by simp [digitChars]; omega
    simp only [digitChar, List.getD_eq_default _ _ hl]
    decide

theorem digitChar_ne_dot (n : Nat) : digitChar n ≠ '.' := by
  have h := digitChar_mem n
  intro he
  rw [he] at h
  simp [digitChars] at h

theorem digitChar_eq_zero_iff (n : Nat) (h : n < 10) : digitChar n = '0' ↔ n = 0 := by
  interval_cases n <;> simp <;> decide

theorem natDigits_subset (fuel n : Nat) (acc : List Char) (c : Char)
    (hc : c ∈ natDigits fuel n acc) : c ∈ digitChars ∨ c ∈ acc := by
  induction fuel generalizing n acc with
  | zero => exact Or.inr hc
  | succ fuel ih =>
    rw [natDigits] at hc
    split at hc
    · rcases List.mem_cons.mp hc with rfl | h
      · exact Or.inl (digitChar_mem n)
      · exact Or.inr h
    · rcases ih _ _ hc with h | h
      · exact Or.inl h
      · rcases List.mem_cons.mp h with rfl | h
        · exact Or.inl (digitChar_mem _)
        · exact Or.inr h

theorem natToString_no_dot (n : Nat) : '.' ∉ (natToString n).data := by
  intro h
  rcases natDigits_subset (n + 1) n [] '.' h with h | h
  · simp [digitChars] at h
  · simp at h

theorem dropDotZero_append (l : List Char) (hl : '.' ∉ l) (tl : List Char) :
    dropDotZero (l ++ tl) = l ++ dropDotZero tl := by
  induction l with
  | nil => simp
  | cons c rest ih =>
    have hc : c ≠ '.' := fun h => hl (h ▸ List.mem_cons_self c rest)
    have hrest : '.' ∉ rest := fun h => hl (List.mem_cons_of_mem _ h)
    cases h2 : rest ++ tl with
    | nil =>
      rcases List.append_eq_nil.mp h2 with ⟨rfl, rfl⟩
      simp [dropDotZero]
    | cons d rest2 =>
      have : (c :: rest) ++ tl = c :: d :: rest2 := by rw [List.cons_append, h2]
      rw [this, dropDotZero]
      rw [if_neg (by intro hand; exact hc hand.1)]
      rw [← h2, ih hrest]
      simp

theorem dropDotZero_dot (d : Char) (tl : List Char) :
    dropDotZero ('.' :: d :: tl) =
      if d = '0' then dropDotZero tl else '.' :: dropDotZero (d :: tl) := by
  rw [dropDotZero]
  by_cases hd : d = '0' <;> simp [hd]

theorem string_append_mk (a b : List Char) :
    String.mk a ++ String.mk b = String.mk (a ++ b) := rfl

/-- The character-level content of `pyFloatFmt1`. -/
theorem pyFloatFmt1_data (q : ℚ) :
    (pyFloatFmt1 q).data =
      ((fmt1sign q).data ++ (natToString (fmt1int q)).data) ++
        '.' :: [digitChar (fmt1dig q)] := by
  simp [pyFloatFmt1, String.data_append]

theorem fmt1sign_no_dot (q : ℚ) : '.' ∉ (fmt1sign q).data := by
  by_cases h : q < 0 <;> simp [fmt1sign, h]

theorem fmt1dig_lt (q : ℚ) : fmt1dig q < 10 := Nat.mod_lt _ (by omega)

/-- C6 core computation: applying Python's `.replace('.0','')` to the
one-decimal rendering (with its trailing `%`) removes exactly a trailing
`.0`, because the decimal point is the only `.` in the string. -/
theorem pyReplaceDotZero_fmt1 (q : ℚ) :
    pyReplaceDotZero (pyFloatFmt1 q ++ "%") = specPercentRender q := by
  have hnodot : '.' ∉ (fmt1sign q).data ++ (natToString (fmt1int q)).data := by
    intro h
    rcases List.mem_append.mp h with h | h
    · exact fmt1sign_no_dot q h
    · exact natToString_no_dot _ h
  have hdata : (pyFloatFmt1 q ++ "%").data =
      ((fmt1sign q).data ++ (natToString (fmt1int q)).data) ++
        '.' :: digitChar (fmt1dig q) :: ['%'] := by
    simp [String.data_append, pyFloatFmt1_data]
  unfold pyReplaceDotZero
  rw [hdata, dropDotZero_append _ hnodot, dropDotZero_dot]
  by_cases h0 : fmt1dig q = 0
  · have : digitChar (fmt1dig q) = '0' := by
      rw [digitChar_eq_zero_iff _ (fmt1dig_lt q)]; exact h0
    rw [if_pos this]
    show String.mk _ = specPercentRender q
    unfold specPercentRender
    rw [if_pos h0]
    show _ = fmt1sign q ++ natToString (fmt1int q) ++ "%"
    have : dropDotZero ['%'] = ['%'] := by decide
    rw [this]
    cases hs : fmt1sign q with
    | mk sdata =>
      cases hn : natToString (fmt1int q) with
      | mk ndata =>
        show String.mk ((sdata ++ ndata) ++ ['%']) = _
        rw [show ("%" : String) = String.mk ['%'] from rfl,
          string_append_mk, string_append_mk]
  · have hne : digitChar (fmt1dig q) ≠ '0' := fun he =>
      h0 ((digitChar_eq_zero_iff _ (fmt1dig_lt q)).mp he)
    rw [if_neg hne]
    have hdd : dropDotZero (digitChar (fmt1dig q) :: ['%']) =
        digitChar (fmt1dig q) :: ['%'] := by
      rw [dropDotZero]
      rw [if_neg (by intro hand; exact digitChar_ne_dot _ hand.1)]
      rfl
    rw [hdd]
    unfold specPercentRender
    rw [if_neg h0]
    cases hs : fmt1sign q with
    | mk sdata =>
      cases hn : natToString (fmt1int q) with
      | mk ndata =>
        show String.mk ((sdata ++ ndata) ++ '.' :: digitChar (fmt1dig q) :: ['%']) = _
        rw [show ("." : String) = String.mk ['.'] from rfl,
          show ("%" : String) = String.mk ['%'] from rfl,
          string_append_mk, string_append_mk, string_append_mk, string_append_mk]
        simp

/-- C6: for every position (possibly unknown) and size, `percentage` returns
`?` when the position is unknown, `0%` when both size and position are zero,
`?` when the size is zero and the position nonzero, and otherwise
`100 * position / size` formatted with one decimal place with a trailing
`.0` dropped; in particular an integral percent such as `50.0` renders as
`50%`. -/
theorem percentage_matches_spec :
    (∀ (n : Option Int) (d : Int), percentage n d = percent_spec n d)
    ∧ percentage (some 500) 1000 = "50%"
    ∧ percentage none 0 = "?"
    ∧ percentage (some 0) 0 = "0%"
    ∧ percentage (some 7) 0 = "?" := by
  have main : ∀ (n : Option Int) (d : Int), percentage n d = percent_spec n d := by
    intro n d
    match n with
    | none => rfl
    | some n =>
      by_cases hd : d = 0
      · simp [percentage, percent_spec, hd]
      · simp only [percentage, percent_spec, if_neg hd]
        exact pyReplaceDotZero_fmt1 _
  refine ⟨main, ?_, rfl, rfl, rfl⟩
  rw [main]
  have hq : (100 * ((500 : Int) : ℚ) / ((1000 : Int) : ℚ)) = 50 := by push_cast; norm_num
  simp only [percent_spec]
  rw [if_neg (by decide), hq]
  have h1 : |(50 : ℚ)| * 10 = 500 := by norm_num
  have h2 : round ((500 : ℚ)) = 500 := by norm_num
  simp only [specPercentRender, fmt1dig, fmt1int, fmt1sign, h1, h2]
  norm_num
  decide

/-- C10: `percentage` is total — for every input, including a `none`
position, a zero size and negative values, its fallible Python evaluation
`percentageChecked` (in which the one true division is the raising operation
`pyTrueDiv`) returns `Except.ok` of exactly the string `percentage` computes;
the division `100 * position / size` is reached only under the guard
`size ≠ 0`, so no `ZeroDivisionError` is ever raised. -/
theorem percentage_never_raises :
    ∀ (n : Option Int) (d : Int), percentageChecked n d = Except.ok (percentage n d) := by
  intro n d
  match n with
  | none => rfl
  | some n =>
    by_cases hd : d = 0
    · by_cases hn : n = 0 <;> simp [percentageChecked, percentage, hd, hn]
    · have hq : (d : ℚ) ≠ 0 := by
        simpa using hd
      simp [percentageChecked, percentage, hd, pyTrueDiv, hq]

/-! ### Store lemmas -/

theorem lookupF_setF_self (m : Store) (k : It) (f g : File)
    (h : lookupF m k = some g) : lookupF (setF m k f) k = some f := by
  induction m with
  | nil => simp [lookupF] at h
  | cons p m ih =>
    by_cases hk : p.1 = k
    · simp [setF, lookupF, hk]
    · simp only [lookupF, if_neg hk] at h
      simp only [setF, if_neg hk, lookupF, if_neg hk]
      exact ih h

theorem lookupF_setF_ne (m : Store) (k k' : It) (f : File) (h : k' ≠ k) :
    lookupF (setF m k f) k' = lookupF m k' := by
  induction m with
  | nil => rfl
  | cons p m ih =>
    by_cases hk : p.1 = k
    · have hne : k ≠ k' := fun he => h he.symm
      have hne2 : ¬ p.1 = k' := by rw [hk]; exact hne
      simp only [setF, if_pos hk, lookupF, if_neg hne, if_neg hne2]
      exact ih
    · simp only [setF, if_neg hk, lookupF]
      by_cases hk' : p.1 = k'
      · simp [hk']
      · simp only [if_neg hk']
        exact ih

theorem lookupF_eraseF_self (m : Store) (k : It) :
    lookupF (eraseF m k) k = none := by
  induction m with
  | nil => rfl
  | cons p m ih =>
    by_cases hk : p.1 = k
    · simpa [eraseF, hk] using ih
    · simpa [eraseF, lookupF, hk] using ih

theorem lookupF_eraseF_ne (m : Store) (k k' : It) (h : k' ≠ k) :
    lookupF (eraseF m k) k' = lookupF m k' := by
  induction m with
  | nil => rfl
  | cons p m ih =>
    by_cases hk : p.1 = k
    · have hne2 : ¬ p.1 = k' := by rw [hk]; exact fun he => h he.symm
      simp only [eraseF, if_pos hk, lookupF, if_neg hne2]
      exact ih
    · simp only [eraseF, if_neg hk, lookupF]
      by_cases hk' : p.1 = k'
      · simp [hk']
      · simp only [if_neg hk']
        exact ih

theorem lookupF_mapVals (g : File → File) (m : Store) (k : It) :
    lookupF (mapVals g m) k = (lookupF m k).map g := by
  induction m with
  | nil => rfl
  | cons p m ih =>
    by_cases hk : p.1 = k
    · simp [mapVals, lookupF, hk]
    · simpa [mapVals, lookupF, hk] using ih

theorem lookupF_append_of_some (m m' : Store) (k : It) (f : File)
    (h : lookupF m k = some f) : lookupF (m ++ m') k = some f := by
  induction m with
  | nil => simp [lookupF] at h
  | cons p m ih =>
    by_cases hk : p.1 = k
    · simp only [lookupF, if_pos hk] at h
      simp [lookupF, hk, h]
    · simp only [lookupF, if_neg hk] at h
      simpa [lookupF, hk] using ih h

theorem lookupF_append_of_none (m m' : Store) (k : It)
    (h : lookupF m k = none) : lookupF (m ++ m') k = lookupF m' k := by
  induction m with
  | nil => rfl
  | cons p m ih =>
    by_cases hk : p.1 = k
    · simp [lookupF, hk] at h
    · simp only [lookupF, if_neg hk] at h
      simpa [lookupF, hk] using ih h

theorem lookupF_eq_none_iff (m : Store) (k : It) :
    lookupF m k = none ↔ k ∉ m.map Prod.fst := by
  induction m with
  | nil => simp [lookupF]
  | cons p m ih =>
    constructor
    · intro h hmem
      by_cases hk : p.1 = k
      · rw [lookupF, if_pos hk] at h
        exact Option.noConfusion h
      · rw [lookupF, if_neg hk] at h
        rcases List.mem_cons.mp hmem with he | hmem2
        · exact hk he.symm
        · exact (ih.mp h) hmem2
    · intro hnm
      by_cases hk : p.1 = k
      · exact absurd (by rw [List.map_cons, ← hk]; exact List.mem_cons_self _ _) hnm
      · rw [lookupF, if_neg hk]
        exact ih.mpr
          (fun hm => hnm (by rw [List.map_cons]; exact List.mem_cons_of_mem _ hm))

theorem lookupF_isSome_of_mem (m : Store) (k : It)
    (h : k ∈ m.map Prod.fst) : ∃ f, lookupF m k = some f := by
  cases hl : lookupF m k with
  | none => exact absurd ((lookupF_eq_none_iff m k).mp hl) (not_not_intro h)
  | some f => exact ⟨f, rfl⟩

theorem keys_setF (m : Store) (k : It) (f : File) :
    (setF m k f).map Prod.fst = m.map Prod.fst := by
  induction m with
  | nil => rfl
  | cons p m ih =>
    by_cases hk : p.1 = k
    · simpa [setF, hk] using ih
    · simpa [setF, hk] using ih

theorem keys_mapVals (g : File → File) (m : Store) :
    (mapVals g m).map Prod.fst = m.map Prod.fst := by
  induction m with
  | nil => rfl
  | cons p m ih => simp [mapVals, ih]

theorem keys_remove_row (m : Store) (r : Int) :
    (remove_row m r).map Prod.fst = m.map Prod.fst := keys_mapVals _ m

theorem eraseF_sublist (m : Store) (k : It) : List.Sublist (eraseF m k) m := by
  induction m with
  | nil => exact List.Sublist.refl _
  | cons p m ih =>
    by_cases hk : p.1 = k
    · simpa [eraseF, hk] using List.Sublist.cons p ih
    · simpa [eraseF, hk] using List.Sublist.cons₂ p ih

/-! ### Branch equations for the reconcile steps -/

theorem update_row_eq_absent (m : Store) (k : It) (now : ℚ)
    (h : lookupF m k = none) : update_row m k now = (m, []) := by
  unfold update_row
  rw [h]

theorem update_row_eq_row (m : Store) (k : It) (now : ℚ) (f0 : File) (row : Int)
    (h : lookupF m k = some f0) (hr : f0.table_row = some row) :
    update_row m k now =
      (setF m k { f0 with keep_countdown := KEEP_COUNTDOWN },
       [Change.updateRow k { f0 with keep_countdown := KEEP_COUNTDOWN } row now]) := by
  simp only [update_row, h, hr]

theorem update_row_eq_norow (m : Store) (k : It) (now : ℚ) (f0 : File)
    (h : lookupF m k = some f0) (hr : f0.table_row = none) :
    update_row m k now =
      (setF (mapVals bumpRow m) k
         { f0 with keep_countdown := KEEP_COUNTDOWN, table_row := some 0 },
       [Change.insertRow 0,
        Change.updateRow k
          { f0 with keep_countdown := KEEP_COUNTDOWN, table_row := some 0 } 0 now]) := by
  simp only [update_row, h, hr]

theorem observe_one_eq_new (now : ℚ) (c : Cycle) (x : It × Obs)
    (h : lookupF c.store x.1 = none) :
    observe_one now c x =
      { c with closedKeys := c.closedKeys.filter (fun j => decide (j ≠ x.1)),
               store := c.store ++ [(x.1, File.mkNew x.2.name x.2.pos x.2.size now)] } := by
  simp only [observe_one, h]

theorem observe_one_eq_same (now : ℚ) (c : Cycle) (x : It × Obs) (f : File)
    (h : lookupF c.store x.1 = some f)
    (he : f.pos = some x.2.pos ∧ f.size = x.2.size) :
    observe_one now c x =
      { c with closedKeys := c.closedKeys.filter (fun j => decide (j ≠ x.1)) } := by
  simp only [observe_one, h]
  rw [if_pos he]

theorem observe_one_eq_update (now : ℚ) (c : Cycle) (x : It × Obs) (f : File)
    (h : lookupF c.store x.1 = some f)
    (hne : ¬ (f.pos = some x.2.pos ∧ f.size = x.2.size)) :
    observe_one now c x =
      { store := (update_row (setF c.store x.1
                    { f with pos := some x.2.pos, size := x.2.size }) x.1 now).1,
        closedKeys := c.closedKeys.filter (fun j => decide (j ≠ x.1)),
        hilite := addKey c.hilite x.1,
        changes := c.changes ++ (update_row (setF c.store x.1
                    { f with pos := some x.2.pos, size := x.2.size }) x.1 now).2 } := by
  simp only [observe_one, h]
  rw [if_neg hne]

theorem close_one_eq_absent (now : ℚ) (c : Cycle) (k : It)
    (h : lookupF c.store k = none) : close_one now c k = c := by
  simp only [close_one, h]

theorem close_one_eq_norow (now : ℚ) (c : Cycle) (k : It) (f : File)
    (h : lookupF c.store k = some f) (hr : f.table_row = none) :
    close_one now c k = { c with store := eraseF c.store k } := by
  simp only [close_one, h, hr]

theorem close_one_eq_closed (now : ℚ) (c : Cycle) (k : It) (f : File) (row : Int)
    (h : lookupF c.store k = some f) (hr : f.table_row = some row)
    (hp : f.pos = none) : close_one now c k = c := by
  simp only [close_one, h, hr]
  rw [if_pos hp]

theorem close_one_eq_close (now : ℚ) (c : Cycle) (k : It) (f : File) (row : Int)
    (h : lookupF c.store k = some f) (hr : f.table_row = some row)
    (hp : ¬ f.pos = none) :
    close_one now c k =
      { c with store := (update_row (setF c.store k { f with pos := none }) k now).1,
               hilite := addKey c.hilite k,
               changes := c.changes ++
                 (update_row (setF c.store k { f with pos := none }) k now).2 } := by
  simp only [close_one, h, hr]
  rw [if_neg hp]

theorem decay_one_eq_absent (acc : Store × List Change) (k : It)
    (h : lookupF acc.1 k = none) : decay_one acc k = acc := by
  simp only [decay_one, h]

theorem decay_one_eq_norow (acc : Store × List Change) (k : It) (f : File)
    (h : lookupF acc.1 k = some f) (hr : f.table_row = none) :
    decay_one acc k = acc := by
  simp only [decay_one, h, hr]

theorem decay_one_eq_tick (acc : Store × List Change) (k : It) (f : File) (row : Int)
    (h : lookupF acc.1 k = some f) (hr : f.table_row = some row)
    (hc : 0 < f.keep_countdown - 1) :
    decay_one acc k =
      (setF acc.1 k { f with keep_countdown := f.keep_countdown - 1 }, acc.2) := by
  simp only [decay_one, h, hr]
  rw [if_pos hc]

theorem decay_one_eq_evict (acc : Store × List Change) (k : It) (f : File) (row : Int)
    (h : lookupF acc.1 k = some f) (hr : f.table_row = some row)
    (hc : ¬ 0 < f.keep_countdown - 1) :
    decay_one acc k =
      (remove_row (setF acc.1 k
         { f with keep_countdown := f.keep_countdown - 1, table_row := none }) row,
       acc.2 ++ [Change.removeRow row]) := by
  simp only [decay_one, h, hr]
  rw [if_neg hc]

/-! ### Frame lemmas: how a step at one identity affects another identity -/

theorem rowOnly_refl (f : File) : rowOnly f f :=
  ⟨rfl, rfl, rfl, rfl, rfl, rfl, rfl, Iff.rfl⟩

theorem rowOnly_trans (f g h : File) (h1 : rowOnly f g) (h2 : rowOnly g h) :
    rowOnly f h := by
  obtain ⟨a1, a2, a3, a4, a5, a6, a7, a8⟩ := h1
  obtain ⟨b1, b2, b3, b4, b5, b6, b7, b8⟩ := h2
  exact ⟨b1.trans a1, b2.trans a2, b3.trans a3, b4.trans a4, b5.trans a5,
         b6.trans a6, b7.trans a7, b8.trans a8⟩

theorem entryTweak_refl (a : Option File) : entryTweak a a := by
  cases a with
  | none => exact Or.inl ⟨rfl, rfl⟩
  | some f => exact Or.inr ⟨f, f, rfl, rfl, rowOnly_refl f⟩

theorem entryTweak_trans (a b c : Option File)
    (h1 : entryTweak a b) (h2 : entryTweak b c) : entryTweak a c := by
  rcases h1 with ⟨ha, hb⟩ | ⟨f, g, ha, hb, hfg⟩
  · rcases h2 with ⟨hb2, hc⟩ | ⟨f2, g2, hb2, hc, h2'⟩
    · exact Or.inl ⟨ha, hc⟩
    · rw [hb] at hb2
      exact Option.noConfusion hb2
  · rcases h2 with ⟨hb2, hc⟩ | ⟨f2, g2, hb2, hc, h2'⟩
    · rw [hb] at hb2
      exact Option.noConfusion hb2
    · rw [hb] at hb2
      exact Or.inr ⟨f, g2, ha, hc,
        rowOnly_trans f g g2 hfg (Option.some_injective _ hb2 ▸ h2')⟩

theorem rowOnly_bumpRow (f : File) : rowOnly f (bumpRow f) := by
  cases h : f.table_row with
  | none =>
    have hb : bumpRow f = f := by simp [bumpRow, h]
    rw [hb]
    exact rowOnly_refl f
  | some r =>
    have hb : bumpRow f = { f with table_row := some (r + 1) } := by
      simp [bumpRow, h]
    rw [hb]
    exact ⟨rfl, rfl, rfl, rfl, rfl, rfl, rfl, by simp [h]⟩

theorem rowOnly_dropAbove (row : Int) (f : File) : rowOnly f (dropAbove row f) := by
  cases h : f.table_row with
  | none =>
    have hb : dropAbove row f = f := by simp [dropAbove, h]
    rw [hb]
    exact rowOnly_refl f
  | some q =>
    by_cases hq : row < q
    · have hb : dropAbove row f = { f with table_row := some (q - 1) } := by
        simp [dropAbove, h, hq]
      rw [hb]
      exact ⟨rfl, rfl, rfl, rfl, rfl, rfl, rfl, by simp [h]⟩
    · have hb : dropAbove row f = f := by simp [dropAbove, h, hq]
      rw [hb]
      exact rowOnly_refl f

theorem entryTweak_mapVals (g : File → File) (hg : ∀ f, rowOnly f (g f))
    (m : Store) (k : It) : entryTweak (lookupF m k) (lookupF (mapVals g m) k) := by
  rw [lookupF_mapVals]
  cases h : lookupF m k with
  | none => exact Or.inl ⟨rfl, rfl⟩
  | some f => exact Or.inr ⟨f, g f, rfl, rfl, hg f⟩

/-- A call of `update_row` on identity `j` affects any other identity at
most by a row shift. -/
theorem update_row_lookup_ne (m : Store) (j : It) (now : ℚ) (k : It)
    (h : k ≠ j) : entryTweak (lookupF m k) (lookupF (update_row m j now).1 k) := by
  cases hl : lookupF m j with
  | none =>
    rw [update_row_eq_absent m j now hl]
    exact entryTweak_refl _
  | some f0 =>
    cases hr : f0.table_row with
    | some row =>
      rw [update_row_eq_row m j now f0 row hl hr]
      show entryTweak _ (lookupF (setF m j _) k)
      rw [lookupF_setF_ne m j k _ h]
      exact entryTweak_refl _
    | none =>
      rw [update_row_eq_norow m j now f0 hl hr]
      show entryTweak _ (lookupF (setF (mapVals bumpRow m) j _) k)
      rw [lookupF_setF_ne _ j k _ h]
      exact entryTweak_mapVals bumpRow rowOnly_bumpRow m k

/-- An observation step for identity `j` affects any other identity at most
by a row shift. -/
theorem observe_one_lookup_ne (now : ℚ) (c : Cycle) (x : It × Obs) (k : It)
    (h : k ≠ x.1) :
    entryTweak (lookupF c.store k) (lookupF (observe_one now c x).store k) := by
  cases hl : lookupF c.store x.1 with
  | none =>
    rw [observe_one_eq_new now c x hl]
    show entryTweak _ (lookupF (c.store ++ _) k)
    cases hk : lookupF c.store k with
    | none =>
      rw [lookupF_append_of_none _ _ _ hk]
      have hx : ¬ x.1 = k := fun he => h he.symm
      have : lookupF [(x.1, File.mkNew x.2.name x.2.pos x.2.size now)] k = none := by
        simp [lookupF, hx]
      rw [this]
      exact Or.inl ⟨rfl, rfl⟩
    | some f =>
      rw [lookupF_append_of_some _ _ _ _ hk]
      exact Or.inr ⟨f, f, rfl, rfl, rowOnly_refl f⟩
  | some f =>
    by_cases he : f.pos = some x.2.pos ∧ f.size = x.2.size
    · rw [observe_one_eq_same now c x f hl he]
      exact entryTweak_refl _
    · rw [observe_one_eq_update now c x f hl he]
      show entryTweak _ (lookupF (update_row (setF c.store x.1 _) x.1 now).1 k)
      refine entryTweak_trans _ (lookupF (setF c.store x.1
        { f with pos := some x.2.pos, size := x.2.size }) k) _ ?_ ?_
      · rw [lookupF_setF_ne _ _ _ _ h]
        exact entryTweak_refl _
      · exact update_row_lookup_ne _ x.1 now k h

/-- A closed-pass step for identity `j` affects any other identity at most
by a row shift. -/
theorem close_one_lookup_ne (now : ℚ) (c : Cycle) (j k : It) (h : k ≠ j) :
    entryTweak (lookupF c.store k) (lookupF (close_one now c j).store k) := by
  cases hl : lookupF c.store j with
  | none =>
    rw [close_one_eq_absent now c j hl]
    exact entryTweak_refl _
  | some f =>
    cases hr : f.table_row with
    | none =>
      rw [close_one_eq_norow now c j f hl hr]
      show entryTweak _ (lookupF (eraseF c.store j) k)
      rw [lookupF_eraseF_ne _ _ _ h]
      exact entryTweak_refl _
    | some row =>
      by_cases hp : f.pos = none
      · rw [close_one_eq_closed now c j f row hl hr hp]
        exact entryTweak_refl _
      · rw [close_one_eq_close now c j f row hl hr hp]
        show entryTweak _ (lookupF (update_row (setF c.store j _) j now).1 k)
        refine entryTweak_trans _
          (lookupF (setF c.store j { f with pos := none }) k) _ ?_ ?_
        · rw [lookupF_setF_ne _ _ _ _ h]
          exact entryTweak_refl _
        · exact update_row_lookup_ne _ j now k h

/-- A decay step for identity `j` affects any other identity at most by a
row shift. -/
theorem decay_one_lookup_ne (acc : Store × List Change) (j k : It) (h : k ≠ j) :
    entryTweak (lookupF acc.1 k) (lookupF (decay_one acc j).1 k) := by
  cases hl : lookupF acc.1 j with
  | none =>
    rw [decay_one_eq_absent acc j hl]
    exact entryTweak_refl _
  | some f =>
    cases hr : f.table_row with
    | none =>
      rw [decay_one_eq_norow acc j f hl hr]
      exact entryTweak_refl _
    | some row =>
      by_cases hc : 0 < f.keep_countdown - 1
      · rw [decay_one_eq_tick acc j f row hl hr hc]
        show entryTweak _ (lookupF (setF acc.1 j _) k)
        rw [lookupF_setF_ne _ _ _ _ h]
        exact entryTweak_refl _
      · rw [decay_one_eq_evict acc j f row hl hr hc]
        show entryTweak _ (lookupF (remove_row (setF acc.1 j _) row) k)
        refine entryTweak_trans _ (lookupF (setF acc.1 j
          { f with keep_countdown := f.keep_countdown - 1, table_row := none }) k) _ ?_ ?_
        · rw [lookupF_setF_ne _ _ _ _ h]
          exact entryTweak_refl _
        · exact entryTweak_mapVals (dropAbove row) (rowOnly_dropAbove row) _ k

/-! ### Fold and monotonicity lemmas for the passes -/

theorem entryTweak_none_of (a b : Option File) (h : entryTweak a b)
    (ha : a = none) : b = none := by
  rcases h with ⟨_, hb⟩ | ⟨f, g, haf, _, _⟩
  · exact hb
  · rw [ha] at haf
    exact Option.noConfusion haf

theorem observe_fold_lookup_ne (now : ℚ) (l : List (It × Obs)) (c : Cycle) (k : It)
    (h : k ∉ l.map Prod.fst) :
    entryTweak (lookupF c.store k)
      (lookupF (l.foldl (observe_one now) c).store k) := by
  induction l generalizing c with
  | nil => exact entryTweak_refl _
  | cons x l ih =>
    have h1 : k ≠ x.1 ∧ k ∉ l.map Prod.fst := by
      rw [List.map_cons, List.mem_cons] at h
      exact ⟨fun he => h (Or.inl he), fun hm => h (Or.inr hm)⟩
    rw [List.foldl_cons]
    exact entryTweak_trans _ _ _
      (observe_one_lookup_ne now c x k h1.1) (ih _ h1.2)

theorem close_fold_lookup_ne (now : ℚ) (l : List It) (c : Cycle) (k : It)
    (h : k ∉ l) :
    entryTweak (lookupF c.store k)
      (lookupF (l.foldl (close_one now) c).store k) := by
  induction l generalizing c with
  | nil => exact entryTweak_refl _
  | cons j l ih =>
    have h1 : k ≠ j ∧ k ∉ l := by
      rw [List.mem_cons] at h
      exact ⟨fun he => h (Or.inl he), fun hm => h (Or.inr hm)⟩
    rw [List.foldl_cons]
    exact entryTweak_trans _ _ _ (close_one_lookup_ne now c j k h1.1) (ih _ h1.2)

theorem decay_fold_lookup_ne (l : List It) (acc : Store × List Change) (k : It)
    (h : k ∉ l) :
    entryTweak (lookupF acc.1 k) (lookupF (l.foldl decay_one acc).1 k) := by
  induction l generalizing acc with
  | nil => exact entryTweak_refl _
  | cons j l ih =>
    have h1 : k ≠ j ∧ k ∉ l := by
      rw [List.mem_cons] at h
      exact ⟨fun he => h (Or.inl he), fun hm => h (Or.inr hm)⟩
    rw [List.foldl_cons]
    exact entryTweak_trans _ _ _ (decay_one_lookup_ne acc j k h1.1) (ih _ h1.2)

theorem close_one_none (now : ℚ) (c : Cycle) (j k : It)
    (h : lookupF c.store k = none) :
    lookupF (close_one now c j).store k = none := by
  by_cases hj : k = j
  · subst hj
    rw [close_one_eq_absent now c k h, h]
  · exact entryTweak_none_of _ _ (close_one_lookup_ne now c j k hj) h

theorem close_fold_none (now : ℚ) (l : List It) (c : Cycle) (k : It)
    (h : lookupF c.store k = none) :
    lookupF (l.foldl (close_one now) c).store k = none := by
  induction l generalizing c with
  | nil => exact h
  | cons j l ih =>
    rw [List.foldl_cons]
    exact ih _ (close_one_none now c j k h)

theorem decay_one_none (acc : Store × List Change) (j k : It)
    (h : lookupF acc.1 k = none) :
    lookupF (decay_one acc j).1 k = none := by
  by_cases hj : k = j
  · subst hj
    rw [decay_one_eq_absent acc k h, h]
  · exact entryTweak_none_of _ _ (decay_one_lookup_ne acc j k hj) h

theorem decay_fold_none (l : List It) (acc : Store × List Change) (k : It)
    (h : lookupF acc.1 k = none) :
    lookupF (l.foldl decay_one acc).1 k = none := by
  induction l generalizing acc with
  | nil => exact h
  | cons j l ih =>
    rw [List.foldl_cons]
    exact ih _ (decay_one_none acc j k h)

theorem addKey_mono (l : List It) (j k : It) (h : k ∈ l) : k ∈ addKey l j := by
  unfold addKey
  split
  · exact h
  · exact List.mem_append_left _ h

theorem addKey_self (l : List It) (j : It) : j ∈ addKey l j := by
  unfold addKey
  split
  · assumption
  · exact List.mem_append_right _ (List.mem_singleton.mpr rfl)

theorem observe_one_closedKeys (now : ℚ) (c : Cycle) (x : It × Obs) :
    (observe_one now c x).closedKeys
      = c.closedKeys.filter (fun j => decide (j ≠ x.1)) := by
  cases hl : lookupF c.store x.1 with
  | none => rw [observe_one_eq_new now c x hl]
  | some f =>
    by_cases he : f.pos = some x.2.pos ∧ f.size = x.2.size
    · rw [observe_one_eq_same now c x f hl he]
    · rw [observe_one_eq_update now c x f hl he]

theorem observe_one_closedKeys_not_mem (now : ℚ) (c : Cycle) (x : It × Obs) (k : It)
    (h : k ∉ c.closedKeys) : k ∉ (observe_one now c x).closedKeys := by
  rw [observe_one_closedKeys]
  exact fun hm => h (List.mem_of_mem_filter hm)

theorem observe_one_closedKeys_self (now : ℚ) (c : Cycle) (x : It × Obs) :
    x.1 ∉ (observe_one now c x).closedKeys := by
  rw [observe_one_closedKeys]
  intro hm
  have := List.of_mem_filter hm
  simp at this

theorem observe_one_closedKeys_keep (now : ℚ) (c : Cycle) (x : It × Obs) (k : It)
    (h : k ∈ c.closedKeys) (hne : k ≠ x.1) :
    k ∈ (observe_one now c x).closedKeys := by
  rw [observe_one_closedKeys]
  exact List.mem_filter.mpr ⟨h, by simpa using hne⟩

theorem observe_fold_closedKeys_not_mem (now : ℚ) (l : List (It × Obs)) (c : Cycle)
    (k : It) (h : k ∉ c.closedKeys) :
    k ∉ (l.foldl (observe_one now) c).closedKeys := by
  induction l generalizing c with
  | nil => exact h
  | cons x l ih =>
    rw [List.foldl_cons]
    exact ih _ (observe_one_closedKeys_not_mem now c x k h)

theorem observe_fold_closedKeys_keep (now : ℚ) (l : List (It × Obs)) (c : Cycle)
    (k : It) (h : k ∈ c.closedKeys) (hne : k ∉ l.map Prod.fst) :
    k ∈ (l.foldl (observe_one now) c).closedKeys := by
  induction l generalizing c with
  | nil => exact h
  | cons x l ih =>
    have h1 : k ≠ x.1 ∧ k ∉ l.map Prod.fst := by
      rw [List.map_cons, List.mem_cons] at hne
      exact ⟨fun he => hne (Or.inl he), fun hm => hne (Or.inr hm)⟩
    rw [List.foldl_cons]
    exact ih _ (observe_one_closedKeys_keep now c x k h h1.1) h1.2

theorem observe_one_hilite_mono (now : ℚ) (c : Cycle) (x : It × Obs) (k : It)
    (h : k ∈ c.hilite) : k ∈ (observe_one now c x).hilite := by
  cases hl : lookupF c.store x.1 with
  | none => rw [observe_one_eq_new now c x hl]; exact h
  | some f =>
    by_cases he : f.pos = some x.2.pos ∧ f.size = x.2.size
    · rw [observe_one_eq_same now c x f hl he]; exact h
    · rw [observe_one_eq_update now c x f hl he]
      exact addKey_mono _ _ _ h

theorem close_one_hilite_mono (now : ℚ) (c : Cycle) (j k : It)
    (h : k ∈ c.hilite) : k ∈ (close_one now c j).hilite := by
  cases hl : lookupF c.store j with
  | none => rw [close_one_eq_absent now c j hl]; exact h
  | some f =>
    cases hr : f.table_row with
    | none => rw [close_one_eq_norow now c j f hl hr]; exact h
    | some row =>
      by_cases hp : f.pos = none
      · rw [close_one_eq_closed now c j f row hl hr hp]; exact h
      · rw [close_one_eq_close now c j f row hl hr hp]
        exact addKey_mono _ _ _ h

theorem observe_fold_hilite_mono (now : ℚ) (l : List (It × Obs)) (c : Cycle) (k : It)
    (h : k ∈ c.hilite) : k ∈ (l.foldl (observe_one now) c).hilite := by
  induction l generalizing c with
  | nil => exact h
  | cons x l ih =>
    rw [List.foldl_cons]
    exact ih _ (observe_one_hilite_mono now c x k h)

theorem close_fold_hilite_mono (now : ℚ) (l : List It) (c : Cycle) (k : It)
    (h : k ∈ c.hilite) : k ∈ (l.foldl (close_one now) c).hilite := by
  induction l generalizing c with
  | nil => exact h
  | cons j l ih =>
    rw [List.foldl_cons]
    exact ih _ (close_one_hilite_mono now c j k h)

theorem observe_one_changes_mono (now : ℚ) (c : Cycle) (x : It × Obs) (ch : Change)
    (h : ch ∈ c.changes) : ch ∈ (observe_one now c x).changes := by
  cases hl : lookupF c.store x.1 with
  | none => rw [observe_one_eq_new now c x hl]; exact h
  | some f =>
    by_cases he : f.pos = some x.2.pos ∧ f.size = x.2.size
    · rw [observe_one_eq_same now c x f hl he]; exact h
    · rw [observe_one_eq_update now c x f hl he]
      exact List.mem_append_left _ h

theorem close_one_changes_mono (now : ℚ) (c : Cycle) (j : It) (ch : Change)
    (h : ch ∈ c.changes) : ch ∈ (close_one now c j).changes := by
  cases hl : lookupF c.store j with
  | none => rw [close_one_eq_absent now c j hl]; exact h
  | some f =>
    cases hr : f.table_row with
    | none => rw [close_one_eq_norow now c j f hl hr]; exact h
    | some row =>
      by_cases hp : f.pos = none
      · rw [close_one_eq_closed now c j f row hl hr hp]; exact h
      · rw [close_one_eq_close now c j f row hl hr hp]
        exact List.mem_append_left _ h

theorem observe_fold_changes_mono (now : ℚ) (l : List (It × Obs)) (c : Cycle)
    (ch : Change) (h : ch ∈ c.changes) :
    ch ∈ (l.foldl (observe_one now) c).changes := by
  induction l generalizing c with
  | nil => exact h
  | cons x l ih =>
    rw [List.foldl_cons]
    exact ih _ (observe_one_changes_mono now c x ch h)

theorem close_fold_changes_mono (now : ℚ) (l : List It) (c : Cycle)
    (ch : Change) (h : ch ∈ c.changes) :
    ch ∈ (l.foldl (close_one now) c).changes := by
  induction l generalizing c with
  | nil => exact h
  | cons j l ih =>
    rw [List.foldl_cons]
    exact ih _ (close_one_changes_mono now c j ch h)

/-! ### Key-set preservation -/

theorem mem_keys_of_lookup (m : Store) (k : It) (f : File)
    (h : lookupF m k = some f) : k ∈ m.map Prod.fst := by
  by_contra hn
  rw [(lookupF_eq_none_iff m k).mpr hn] at h
  exact Option.noConfusion h

theorem update_row_keys (m : Store) (k : It) (now : ℚ) :
    (update_row m k now).1.map Prod.fst = m.map Prod.fst := by
  cases hl : lookupF m k with
  | none => rw [update_row_eq_absent m k now hl]
  | some f0 =>
    cases hr : f0.table_row with
    | some row =>
      rw [update_row_eq_row m k now f0 row hl hr]
      exact keys_setF _ _ _
    | none =>
      rw [update_row_eq_norow m k now f0 hl hr]
      show (setF (mapVals bumpRow m) k _).map Prod.fst = _
      rw [keys_setF, keys_mapVals]

theorem observe_one_nodupKeys (now : ℚ) (c : Cycle) (x : It × Obs)
    (h : NodupKeys c.store) : NodupKeys (observe_one now c x).store := by
  cases hl : lookupF c.store x.1 with
  | none =>
    rw [observe_one_eq_new now c x hl]
    show NodupKeys (c.store ++ [_])
    have hx : x.1 ∉ c.store.map Prod.fst := (lookupF_eq_none_iff _ _).mp hl
    unfold NodupKeys at h ⊢
    rw [List.map_append]
    rw [List.nodup_append]
    refine ⟨h, List.nodup_singleton _, ?_⟩
    intro a ha hb
    rw [List.map_singleton, List.mem_singleton] at hb
    exact hx (hb ▸ ha)
  | some f =>
    by_cases he : f.pos = some x.2.pos ∧ f.size = x.2.size
    · rw [observe_one_eq_same now c x f hl he]
      exact h
    · rw [observe_one_eq_update now c x f hl he]
      show NodupKeys (update_row (setF c.store x.1 _) x.1 now).1
      unfold NodupKeys
      rw [update_row_keys, keys_setF]
      exact h

theorem close_one_nodupKeys (now : ℚ) (c : Cycle) (j : It)
    (h : NodupKeys c.store) : NodupKeys (close_one now c j).store := by
  cases hl : lookupF c.store j with
  | none =>
    rw [close_one_eq_absent now c j hl]
    exact h
  | some f =>
    cases hr : f.table_row with
    | none =>
      rw [close_one_eq_norow now c j f hl hr]
      show NodupKeys (eraseF c.store j)
      exact List.Nodup.sublist (List.Sublist.map _ (eraseF_sublist c.store j)) h
    | some row =>
      by_cases hp : f.pos = none
      · rw [close_one_eq_closed now c j f row hl hr hp]
        exact h
      · rw [close_one_eq_close now c j f row hl hr hp]
        show NodupKeys (update_row (setF c.store j _) j now).1
        unfold NodupKeys
        rw [update_row_keys, keys_setF]
        exact h

theorem decay_one_nodupKeys (acc : Store × List Change) (j : It)
    (h : NodupKeys acc.1) : NodupKeys (decay_one acc j).1 := by
  cases hl : lookupF acc.1 j with
  | none =>
    rw [decay_one_eq_absent acc j hl]
    exact h
  | some f =>
    cases hr : f.table_row with
    | none =>
      rw [decay_one_eq_norow acc j f hl hr]
      exact h
    | some row =>
      by_cases hc : 0 < f.keep_countdown - 1
      · rw [decay_one_eq_tick acc j f row hl hr hc]
        show NodupKeys (setF acc.1 j _)
        unfold NodupKeys
        rw [keys_setF]
        exact h
      · rw [decay_one_eq_evict acc j f row hl hr hc]
        show NodupKeys (remove_row (setF acc.1 j _) row)
        unfold NodupKeys
        rw [keys_remove_row, keys_setF]
        exact h

theorem observe_fold_nodupKeys (now : ℚ) (l : List (It × Obs)) (c : Cycle)
    (h : NodupKeys c.store) : NodupKeys (l.foldl (observe_one now) c).store := by
  induction l generalizing c with
  | nil => exact h
  | cons x l ih =>
    rw [List.foldl_cons]
    exact ih _ (observe_one_nodupKeys now c x h)

theorem close_fold_nodupKeys (now : ℚ) (l : List It) (c : Cycle)
    (h : NodupKeys c.store) : NodupKeys (l.foldl (close_one now) c).store := by
  induction l generalizing c with
  | nil => exact h
  | cons j l ih =>
    rw [List.foldl_cons]
    exact ih _ (close_one_nodupKeys now c j h)

/-! ### The observed-and-changed trace through one cycle -/

theorem updatedFrom_of_rowOnly_post (f : File) (o : Obs) (g g' : File)
    (h1 : updatedFrom f o g) (h2 : rowOnly g g') : updatedFrom f o g' := by
  obtain ⟨a1, a2, a3, a4, a5, a6, ⟨r, hr⟩, a8⟩ := h1
  obtain ⟨b1, b2, b3, b4, b5, b6, b7, b8⟩ := h2
  refine ⟨b1.trans a1, b2.trans a2, b3.trans a3, b4.trans a4, b5.trans a5,
          b6.trans a6, ?_, b7.trans a8⟩
  cases hg' : g'.table_row with
  | none => exact absurd (b8.mp hg') (by rw [hr]; exact fun h => Option.noConfusion h)
  | some r' => exact ⟨r', rfl⟩

/-- The `update_row` call at the identity itself: the countdown is
refreshed, a row is held (row 0 freshly assigned when there was none), and
an update-row change for exactly the stored record is emitted. -/
theorem update_row_self (m : Store) (k : It) (now : ℚ) (f' : File)
    (hm1 : lookupF m k = some f') :
    ∃ row, lookupF (update_row m k now).1 k
        = some { f' with table_row := some row, keep_countdown := KEEP_COUNTDOWN }
      ∧ Change.updateRow k
          { f' with table_row := some row, keep_countdown := KEEP_COUNTDOWN } row now
          ∈ (update_row m k now).2 := by
  cases hr : f'.table_row with
  | some row =>
    rw [update_row_eq_row m k now f' row hm1 hr]
    refine ⟨row, ?_, ?_⟩
    · rw [← hr]
      exact lookupF_setF_self _ _ _ _ hm1
    · rw [← hr]
      exact List.mem_singleton.mpr rfl
  | none =>
    rw [update_row_eq_norow m k now f' hm1 hr]
    refine ⟨0, ?_, ?_⟩
    · exact lookupF_setF_self _ _ _ _ (by rw [lookupF_mapVals, hm1]; rfl)
    · exact List.mem_cons_of_mem _ (List.mem_singleton.mpr rfl)

/-- The observation step at the identity itself, in the changed case. -/
theorem observe_one_self_update (now : ℚ) (c : Cycle) (x : It × Obs) (f : File)
    (hl : lookupF c.store x.1 = some f)
    (hne : ¬ (f.pos = some x.2.pos ∧ f.size = x.2.size)) :
    (∃ g, lookupF (observe_one now c x).store x.1 = some g ∧ updatedFrom f x.2 g)
    ∧ x.1 ∈ (observe_one now c x).hilite
    ∧ (∃ f2 row, Change.updateRow x.1 f2 row now ∈ (observe_one now c x).changes) := by
  rw [observe_one_eq_update now c x f hl hne]
  obtain ⟨row, hg, hch⟩ := update_row_self
    (setF c.store x.1 { f with pos := some x.2.pos, size := x.2.size }) x.1 now
    { f with pos := some x.2.pos, size := x.2.size }
    (lookupF_setF_self _ _ _ _ hl)
  exact ⟨⟨_, hg, ⟨rfl, rfl, rfl, rfl, rfl, rfl, ⟨row, rfl⟩, rfl⟩⟩,
         addKey_self _ _, ⟨_, row, List.mem_append_right _ hch⟩⟩

theorem updatedFrom_of_rowOnly_pre (f f1 : File) (o : Obs) (g : File)
    (h1 : rowOnly f f1) (h2 : updatedFrom f1 o g) : updatedFrom f o g := by
  obtain ⟨b1, b2, b3, b4, b5, b6, b7, b8⟩ := h1
  obtain ⟨a1, a2, a3, a4, a5, a6, a7, a8⟩ := h2
  exact ⟨a1.trans b1, a2, a3, a4.trans b4, a5.trans b5, a6.trans b6, a7, a8⟩

/-- The whole observation pass, traced for one observed identity whose
stored position or size differs from the observation. -/
theorem observe_pass_update (now : ℚ) (l : List (It × Obs)) (c : Cycle)
    (k : It) (o : Obs) (f : File)
    (hnd : (l.map Prod.fst).Nodup) (hmem : (k, o) ∈ l)
    (hl : lookupF c.store k = some f)
    (hne : ¬ (f.pos = some o.pos ∧ f.size = o.size)) :
    (∃ g, lookupF (l.foldl (observe_one now) c).store k = some g ∧ updatedFrom f o g)
    ∧ k ∈ (l.foldl (observe_one now) c).hilite
    ∧ k ∉ (l.foldl (observe_one now) c).closedKeys
    ∧ (∃ f2 row, Change.updateRow k f2 row now
        ∈ (l.foldl (observe_one now) c).changes) := by
  obtain ⟨l1, l2, rfl⟩ := List.append_of_mem hmem
  have hmap : (l1 ++ (k, o) :: l2).map Prod.fst
      = l1.map Prod.fst ++ k :: l2.map Prod.fst := by simp
  rw [hmap] at hnd
  have hks := (List.nodup_cons.mp (List.nodup_middle.mp hnd)).1
  have hk1 : k ∉ l1.map Prod.fst := fun h => hks (List.mem_append_left _ h)
  have hk2 : k ∉ l2.map Prod.fst := fun h => hks (List.mem_append_right _ h)
  rw [List.foldl_append, List.foldl_cons]
  have h1 := observe_fold_lookup_ne now l1 c k hk1
  rw [hl] at h1
  rcases h1 with ⟨h1a, _⟩ | ⟨f0, f1, h1a, h1b, hro⟩
  · exact Option.noConfusion h1a
  have hf0 : f0 = f := (Option.some_injective _ h1a).symm
  rw [hf0] at hro
  have hne1 : ¬ (f1.pos = some o.pos ∧ f1.size = o.size) := by
    rw [hro.2.1, hro.2.2.1]
    exact hne
  obtain ⟨⟨g1, hg1, hup1⟩, hhil1, f2, row2, hch1⟩ :=
    observe_one_self_update now (l1.foldl (observe_one now) c) (k, o) f1 h1b hne1
  have hup1' : updatedFrom f o g1 := updatedFrom_of_rowOnly_pre f f1 o g1 hro hup1
  have hnck : k ∉ (observe_one now (l1.foldl (observe_one now) c) (k, o)).closedKeys :=
    observe_one_closedKeys_self now _ (k, o)
  refine ⟨?_, ?_, ?_, ?_⟩
  · have h2 := observe_fold_lookup_ne now l2
      (observe_one now (l1.foldl (observe_one now) c) (k, o)) k hk2
    rw [hg1] at h2
    rcases h2 with ⟨h2a, _⟩ | ⟨g1', g2, h2a, h2b, hro2⟩
    · exact Option.noConfusion h2a
    have hg1' : g1' = g1 := (Option.some_injective _ h2a).symm
    rw [hg1'] at hro2
    exact ⟨g2, h2b, updatedFrom_of_rowOnly_post f o g1 g2 hup1' hro2⟩
  · exact observe_fold_hilite_mono now l2 _ k hhil1
  · exact observe_fold_closedKeys_not_mem now l2 _ k hnck
  · exact ⟨f2, row2, observe_fold_changes_mono now l2 _ _ hch1⟩

/-- A whole reconcile cycle, traced for one observed identity whose stored
position or size differs from its observation: at the end of the cycle the
record holds the observed position and size, keeps its anchors, holds a
table row, and its countdown is `KEEP_COUNTDOWN - 1` (refreshed by
`update_row`, then decremented once by the decay pass); the identity is in
the cycle's highlight set and an update-row change was emitted. -/
theorem update_table_self_update (s : AppState) (procs : List Process) (now : ℚ)
    (k : It) (o : Obs) (f : File)
    (hndobs : ((observations s.ignored procs).map Prod.fst).Nodup)
    (hndkeys : NodupKeys s.proc_files)
    (hmem : (k, o) ∈ observations s.ignored procs)
    (hl : lookupF s.proc_files k = some f)
    (hne : ¬ (f.pos = some o.pos ∧ f.size = o.size)) :
    (∃ g, lookupF (update_table s procs now).1.proc_files k = some g ∧
       g.name = f.name ∧ g.pos = some o.pos ∧ g.size = o.size ∧
       g.first_pos = f.first_pos ∧ g.first_size = f.first_size ∧
       g.first_timestamp = f.first_timestamp ∧ (∃ r, g.table_row = some r) ∧
       g.keep_countdown = KEEP_COUNTDOWN - 1)
    ∧ k ∈ (update_table s procs now).1.last_hilite
    ∧ (∃ f2 row, Change.updateRow k f2 row now ∈ (update_table s procs now).2) := by
  obtain ⟨⟨g1, hg1, hup1⟩, hhil1, hnck1, f2, row2, hch1⟩ :=
    observe_pass_update now (observations s.ignored procs)
      { store := s.proc_files, closedKeys := s.proc_files.map Prod.fst,
        hilite := [], changes := [] } k o f hndobs hmem hl hne
  simp only [update_table]
  generalize hC1 : (observations s.ignored procs).foldl (observe_one now)
      { store := s.proc_files, closedKeys := s.proc_files.map Prod.fst,
        hilite := [], changes := [] } = c1 at hg1 hhil1 hnck1 hch1 ⊢
  -- closed pass
  have h2 := close_fold_lookup_ne now c1.closedKeys c1 k hnck1
  rw [hg1] at h2
  rcases h2 with ⟨h2a, _⟩ | ⟨g1', g2, h2a, h2b, hro2⟩
  · exact Option.noConfusion h2a
  have hg1' : g1' = g1 := (Option.some_injective _ h2a).symm
  rw [hg1'] at hro2
  have hup2 : updatedFrom f o g2 := updatedFrom_of_rowOnly_post f o g1 g2 hup1 hro2
  have hhil2 := close_fold_hilite_mono now c1.closedKeys c1 k hhil1
  have hch2 := close_fold_changes_mono now c1.closedKeys c1 _ hch1
  have hnd1 : NodupKeys c1.store := by
    rw [← hC1]
    exact observe_fold_nodupKeys now _ _ hndkeys
  generalize hC2 : c1.closedKeys.foldl (close_one now) c1 = c2 at h2b hhil2 hch2 ⊢
  have hnd2 : NodupKeys c2.store := by
    rw [← hC2]
    exact close_fold_nodupKeys now _ _ hnd1
  -- decay pass
  obtain ⟨L1, L2, hsplit⟩ := List.append_of_mem (mem_keys_of_lookup _ _ _ h2b)
  have hknd := hnd2
  unfold NodupKeys at hknd
  rw [hsplit] at hknd
  have hks := (List.nodup_cons.mp (List.nodup_middle.mp hknd)).1
  have hkL1 : k ∉ L1 := fun h => hks (List.mem_append_left _ h)
  have hkL2 : k ∉ L2 := fun h => hks (List.mem_append_right _ h)
  rw [hsplit, List.foldl_append, List.foldl_cons]
  have h3 := decay_fold_lookup_ne L1 (c2.store, []) k hkL1
  rw [show ((c2.store, ([] : List Change)).1) = c2.store from rfl, h2b] at h3
  rcases h3 with ⟨h3a, _⟩ | ⟨g2', g3, h3a, h3b, hro3⟩
  · exact Option.noConfusion h3a
  have hg2' : g2' = g2 := (Option.some_injective _ h3a).symm
  rw [hg2'] at hro3
  have hup3 : updatedFrom f o g3 := updatedFrom_of_rowOnly_post f o g2 g3 hup2 hro3
  obtain ⟨u1, u2, u3, u4, u5, u6, ⟨r3, hr3⟩, u8⟩ := hup3
  have hc3 : 0 < g3.keep_countdown - 1 := by
    rw [u8]
    decide
  rw [decay_one_eq_tick (L1.foldl decay_one (c2.store, [])) k g3 r3 h3b hr3 hc3]
  have h4 := decay_fold_lookup_ne L2
    (setF (L1.foldl decay_one (c2.store, [])).1 k
      { g3 with keep_countdown := g3.keep_countdown - 1 },
     (L1.foldl decay_one (c2.store, [])).2) k hkL2
  rw [show (setF (L1.foldl decay_one (c2.store, [])).1 k
      { g3 with keep_countdown := g3.keep_countdown - 1 },
     (L1.foldl decay_one (c2.store, [])).2).1
      = setF (L1.foldl decay_one (c2.store, [])).1 k
      { g3 with keep_countdown := g3.keep_countdown - 1 } from rfl] at h4
  rw [lookupF_setF_self _ _ _ _ h3b] at h4
  rcases h4 with ⟨h4a, _⟩ | ⟨g4', g5, h4a, h4b, hro5⟩
  · exact Option.noConfusion h4a
  have hg4' : g4' = { g3 with keep_countdown := g3.keep_countdown - 1 } :=
    (Option.some_injective _ h4a).symm
  rw [hg4'] at hro5
  obtain ⟨v1, v2, v3, v4, v5, v6, v7, v8⟩ := hro5
  refine ⟨⟨g5, h4b, ?_, ?_, ?_, ?_, ?_, ?_, ?_, ?_⟩, hhil2, ?_⟩
  · exact v1.trans u1
  · exact v2.trans u2
  · exact v3.trans u3
  · exact v4.trans u4
  · exact v5.trans u5
  · exact v6.trans u6
  · cases hg5r : g5.table_row with
    | none =>
      exfalso
      have : ({ g3 with keep_countdown := g3.keep_countdown - 1 } : File).table_row
          = none := v8.mp hg5r
      rw [show ({ g3 with keep_countdown := g3.keep_countdown - 1 } : File).table_row
          = g3.table_row from rfl, hr3] at this
      exact Option.noConfusion this
    | some r5 => exact ⟨r5, rfl⟩
  · rw [v7]
    rw [show ({ g3 with keep_countdown := g3.keep_countdown - 1 } : File).keep_countdown
        = g3.keep_countdown - 1 from rfl, u8]
  · exact ⟨f2, row2, List.mem_append_left _ (List.mem_append_left _ hch2)⟩

/-! ### Row-absence and closed-position traces -/

theorem rowNoneAt_of_entryTweak (m m' : Store) (k : It)
    (h : entryTweak (lookupF m k) (lookupF m' k)) (hr : rowNoneAt m k) :
    rowNoneAt m' k := by
  intro g hg
  rcases h with ⟨_, hb⟩ | ⟨f, g', ha, hb, hro⟩
  · rw [hg] at hb
    exact Option.noConfusion hb
  · rw [hg] at hb
    have hgg : g = g' := Option.some_injective _ hb
    rw [hgg]
    exact hro.2.2.2.2.2.2.2.mpr (hr f ha)

theorem posNoneAt_of_entryTweak (m m' : Store) (k : It)
    (h : entryTweak (lookupF m k) (lookupF m' k)) (hr : posNoneAt m k) :
    posNoneAt m' k := by
  intro g hg
  rcases h with ⟨_, hb⟩ | ⟨f, g', ha, hb, hro⟩
  · rw [hg] at hb
    exact Option.noConfusion hb
  · rw [hg] at hb
    have hgg : g = g' := Option.some_injective _ hb
    rw [hgg, hro.2.1]
    exact hr f ha

theorem observe_fold_rowNoneAt (now : ℚ) (l : List (It × Obs)) (c : Cycle) (k : It)
    (hk : k ∉ l.map Prod.fst) (h : rowNoneAt c.store k) :
    rowNoneAt (l.foldl (observe_one now) c).store k :=
  rowNoneAt_of_entryTweak _ _ _ (observe_fold_lookup_ne now l c k hk) h

theorem close_fold_rowNoneAt_ne (now : ℚ) (l : List It) (c : Cycle) (k : It)
    (hk : k ∉ l) (h : rowNoneAt c.store k) :
    rowNoneAt (l.foldl (close_one now) c).store k :=
  rowNoneAt_of_entryTweak _ _ _ (close_fold_lookup_ne now l c k hk) h

theorem decay_one_rowNoneAt (acc : Store × List Change) (j k : It)
    (h : rowNoneAt acc.1 k) : rowNoneAt (decay_one acc j).1 k := by
  by_cases hj : j = k
  · subst hj
    cases hl : lookupF acc.1 j with
    | none =>
      rw [decay_one_eq_absent acc j hl]
      exact h
    | some f =>
      rw [decay_one_eq_norow acc j f hl (h f hl)]
      exact h
  · exact rowNoneAt_of_entryTweak _ _ _
      (decay_one_lookup_ne acc j k (fun he => hj he.symm)) h

theorem decay_fold_rowNoneAt (l : List It) (acc : Store × List Change) (k : It)
    (h : rowNoneAt acc.1 k) : rowNoneAt (l.foldl decay_one acc).1 k := by
  induction l generalizing acc with
  | nil => exact h
  | cons j l ih =>
    rw [List.foldl_cons]
    exact ih _ (decay_one_rowNoneAt acc j k h)

theorem decay_one_isSome (acc : Store × List Change) (j k : It)
    (h : ∃ g, lookupF acc.1 k = some g) :
    ∃ g', lookupF (decay_one acc j).1 k = some g' := by
  obtain ⟨g, hg⟩ := h
  by_cases hj : j = k
  · subst hj
    cases hr : g.table_row with
    | none =>
      rw [decay_one_eq_norow acc j g hg hr]
      exact ⟨g, hg⟩
    | some row =>
      by_cases hc : 0 < g.keep_countdown - 1
      · rw [decay_one_eq_tick acc j g row hg hr hc]
        exact ⟨_, lookupF_setF_self _ _ _ _ hg⟩
      · rw [decay_one_eq_evict acc j g row hg hr hc]
        show ∃ g', lookupF (remove_row (setF acc.1 j _) row) j = some g'
        unfold remove_row
        rw [lookupF_mapVals, lookupF_setF_self _ _ _ _ hg]
        exact ⟨_, rfl⟩
  · have := decay_one_lookup_ne acc j k (fun he => hj he.symm)
    rcases this with ⟨ha, _⟩ | ⟨f, g', _, hb, _⟩
    · rw [hg] at ha
      exact Option.noConfusion ha
    · exact ⟨g', hb⟩

theorem decay_fold_isSome (l : List It) (acc : Store × List Change) (k : It)
    (h : ∃ g, lookupF acc.1 k = some g) :
    ∃ g', lookupF (l.foldl decay_one acc).1 k = some g' := by
  induction l generalizing acc with
  | nil => exact h
  | cons j l ih =>
    rw [List.foldl_cons]
    exact ih _ (decay_one_isSome acc j k h)

theorem observe_fold_posNoneAt (now : ℚ) (l : List (It × Obs)) (c : Cycle) (k : It)
    (hk : k ∉ l.map Prod.fst) (h : posNoneAt c.store k) :
    posNoneAt (l.foldl (observe_one now) c).store k :=
  posNoneAt_of_entryTweak _ _ _ (observe_fold_lookup_ne now l c k hk) h

theorem close_one_posNoneAt (now : ℚ) (c : Cycle) (j k : It)
    (h : posNoneAt c.store k) : posNoneAt (close_one now c j).store k := by
  by_cases hj : j = k
  · subst hj
    cases hl : lookupF c.store j with
    | none =>
      rw [close_one_eq_absent now c j hl]
      exact h
    | some f =>
      cases hr : f.table_row with
      | none =>
        rw [close_one_eq_norow now c j f hl hr]
        intro g hg
        rw [lookupF_eraseF_self] at hg
        exact Option.noConfusion hg
      | some row =>
        rw [close_one_eq_closed now c j f row hl hr (h f hl)]
        exact h
  · exact posNoneAt_of_entryTweak _ _ _
      (close_one_lookup_ne now c j k (fun he => hj he.symm)) h

theorem close_fold_posNoneAt (now : ℚ) (l : List It) (c : Cycle) (k : It)
    (h : posNoneAt c.store k) :
    posNoneAt (l.foldl (close_one now) c).store k := by
  induction l generalizing c with
  | nil => exact h
  | cons j l ih =>
    rw [List.foldl_cons]
    exact ih _ (close_one_posNoneAt now c j k h)

theorem decay_one_posNoneAt (acc : Store × List Change) (j k : It)
    (h : posNoneAt acc.1 k) : posNoneAt (decay_one acc j).1 k := by
  by_cases hj : j = k
  · subst hj
    cases hl : lookupF acc.1 j with
    | none =>
      rw [decay_one_eq_absent acc j hl]
      exact h
    | some f =>
      cases hr : f.table_row with
      | none =>
        rw [decay_one_eq_norow acc j f hl hr]
        exact h
      | some row =>
        by_cases hc : 0 < f.keep_countdown - 1
        · rw [decay_one_eq_tick acc j f row hl hr hc]
          intro g hg
          rw [lookupF_setF_self _ _ _ _ hl] at hg
          have : g = { f with keep_countdown := f.keep_countdown - 1 } :=
            Option.some_injective _ hg.symm
          rw [this]
          exact h f hl
        · rw [decay_one_eq_evict acc j f row hl hr hc]
          intro g hg
          show g.pos = none
          unfold remove_row at hg
          rw [lookupF_mapVals, lookupF_setF_self _ _ _ _ hl] at hg
          have : g = dropAbove row
              { f with keep_countdown := f.keep_countdown - 1, table_row := none } :=
            Option.some_injective _ hg.symm
          rw [this, (rowOnly_dropAbove row _).2.1]
          exact h f hl
  · exact posNoneAt_of_entryTweak _ _ _
      (decay_one_lookup_ne acc j k (fun he => hj he.symm)) h

theorem decay_fold_posNoneAt (l : List It) (acc : Store × List Change) (k : It)
    (h : posNoneAt acc.1 k) : posNoneAt (l.foldl decay_one acc).1 k := by
  induction l generalizing acc with
  | nil => exact h
  | cons j l ih =>
    rw [List.foldl_cons]
    exact ih _ (decay_one_posNoneAt acc j k h)

/-- The closed pass deletes a row-less vanished identity outright. -/
theorem close_fold_erase (now : ℚ) (l : List It) (c : Cycle) (k : It)
    (hmem : k ∈ l) (hrn : rowNoneAt c.store k) :
    lookupF (l.foldl (close_one now) c).store k = none := by
  induction l generalizing c with
  | nil => exact absurd hmem (List.not_mem_nil k)
  | cons j l ih =>
    rw [List.foldl_cons]
    by_cases hj : j = k
    · subst hj
      cases hl : lookupF c.store j with
      | none =>
        rw [close_one_eq_absent now c j hl]
        exact close_fold_none now l _ _ hl
      | some f =>
        rw [close_one_eq_norow now c j f hl (hrn f hl)]
        exact close_fold_none now l _ _ (lookupF_eraseF_self c.store j)
    · have hmem' : k ∈ l := by
        rcases List.mem_cons.mp hmem with he | hm
        · exact absurd he.symm hj
        · exact hm
      exact ih _ hmem' (rowNoneAt_of_entryTweak _ _ _
        (close_one_lookup_ne now c j k (fun he => hj he.symm)) hrn)

/-- A tracked identity that is absent from the filtered snapshot and has no
table row is deleted from the store by the end of the cycle. -/
theorem update_table_unobserved_norow (s : AppState) (procs : List Process)
    (now : ℚ) (k : It) (f : File)
    (hl : lookupF s.proc_files k = some f) (hr : f.table_row = none)
    (hno : k ∉ (observations s.ignored procs).map Prod.fst) :
    lookupF (update_table s procs now).1.proc_files k = none := by
  simp only [update_table]
  have hrn : rowNoneAt s.proc_files k := by
    intro g hg
    have : g = f := Option.some_injective _ (hg.symm.trans hl)
    rw [this]
    exact hr
  have hrn1 : rowNoneAt ((observations s.ignored procs).foldl (observe_one now)
      { store := s.proc_files, closedKeys := s.proc_files.map Prod.fst,
        hilite := [], changes := [] }).store k :=
    observe_fold_rowNoneAt now _ _ k hno hrn
  have hmem1 : k ∈ ((observations s.ignored procs).foldl (observe_one now)
      { store := s.proc_files, closedKeys := s.proc_files.map Prod.fst,
        hilite := [], changes := [] }).closedKeys :=
    observe_fold_closedKeys_keep now _ _ k (mem_keys_of_lookup _ _ _ hl) hno
  generalize hC1 : (observations s.ignored procs).foldl (observe_one now)
      { store := s.proc_files, closedKeys := s.proc_files.map Prod.fst,
        hilite := [], changes := [] } = c1 at hrn1 hmem1 ⊢
  have h2 : lookupF (c1.closedKeys.foldl (close_one now) c1).store k = none :=
    close_fold_erase now c1.closedKeys c1 k hmem1 hrn1
  generalize hC2 : c1.closedKeys.foldl (close_one now) c1 = c2 at h2 ⊢
  exact decay_fold_none _ _ _ h2

/-- The observation pass traced for an observed identity whose stored
position and size both match the observation: nothing changes for it. -/
theorem observe_pass_nochange (now : ℚ) (l : List (It × Obs)) (c : Cycle)
    (k : It) (o : Obs) (f : File)
    (hnd : (l.map Prod.fst).Nodup) (hmem : (k, o) ∈ l)
    (hl : lookupF c.store k = some f)
    (heq : f.pos = some o.pos ∧ f.size = o.size) (hrow : f.table_row = none) :
    rowNoneAt (l.foldl (observe_one now) c).store k
    ∧ k ∉ (l.foldl (observe_one now) c).closedKeys := by
  obtain ⟨l1, l2, rfl⟩ := List.append_of_mem hmem
  have hmap : (l1 ++ (k, o) :: l2).map Prod.fst
      = l1.map Prod.fst ++ k :: l2.map Prod.fst := by simp
  rw [hmap] at hnd
  have hks := (List.nodup_cons.mp (List.nodup_middle.mp hnd)).1
  have hk1 : k ∉ l1.map Prod.fst := fun h => hks (List.mem_append_left _ h)
  have hk2 : k ∉ l2.map Prod.fst := fun h => hks (List.mem_append_right _ h)
  rw [List.foldl_append, List.foldl_cons]
  have h1 := observe_fold_lookup_ne now l1 c k hk1
  rw [hl] at h1
  rcases h1 with ⟨h1a, _⟩ | ⟨f0, f1, h1a, h1b, hro⟩
  · exact Option.noConfusion h1a
  have hf0 : f0 = f := (Option.some_injective _ h1a).symm
  rw [hf0] at hro
  have heq1 : f1.pos = some o.pos ∧ f1.size = o.size := by
    rw [hro.2.1, hro.2.2.1]
    exact heq
  have heq1' : f1.pos = some ((k, o).2).pos ∧ f1.size = ((k, o).2).size := heq1
  rw [observe_one_eq_same now _ (k, o) f1 h1b heq1']
  constructor
  · refine observe_fold_rowNoneAt now l2 _ k hk2 ?_
    intro g hg
    have : g = f1 := Option.some_injective _ (hg.symm.trans h1b)
    rw [this]
    exact hro.2.2.2.2.2.2.2.mpr hrow
  · refine observe_fold_closedKeys_not_mem now l2 _ k ?_
    show k ∉ List.filter _ _
    intro hmf
    have := List.of_mem_filter hmf
    simp at this

/-- A row-less identity observed with unchanged position and size stays
tracked and row-less through the whole cycle (it is not promoted). -/
theorem update_table_nochange_norow (s : AppState) (procs : List Process)
    (now : ℚ) (k : It) (o : Obs) (f : File)
    (hnd : ((observations s.ignored procs).map Prod.fst).Nodup)
    (hmem : (k, o) ∈ observations s.ignored procs)
    (hl : lookupF s.proc_files k = some f)
    (heq : f.pos = some o.pos ∧ f.size = o.size) (hrow : f.table_row = none) :
    rowNoneAt (update_table s procs now).1.proc_files k := by
  simp only [update_table]
  obtain ⟨hrn1, hnck1⟩ := observe_pass_nochange now (observations s.ignored procs)
    { store := s.proc_files, closedKeys := s.proc_files.map Prod.fst,
      hilite := [], changes := [] } k o f hnd hmem hl heq hrow
  generalize hC1 : (observations s.ignored procs).foldl (observe_one now)
      { store := s.proc_files, closedKeys := s.proc_files.map Prod.fst,
        hilite := [], changes := [] } = c1 at hrn1 hnck1 ⊢
  have hrn2 := close_fold_rowNoneAt_ne now c1.closedKeys c1 k hnck1 hrn1
  generalize hC2 : c1.closedKeys.foldl (close_one now) c1 = c2 at hrn2 ⊢
  exact decay_fold_rowNoneAt _ _ _ hrn2

/-- A closed (absent-position) identity that does not reappear in the
snapshot keeps an absent position through the whole cycle (it is possibly
deleted, never reopened). -/
theorem update_table_posNoneAt (s : AppState) (procs : List Process)
    (now : ℚ) (k : It)
    (hpos : posNoneAt s.proc_files k)
    (hno : k ∉ (observations s.ignored procs).map Prod.fst) :
    posNoneAt (update_table s procs now).1.proc_files k := by
  simp only [update_table]
  have h1 : posNoneAt ((observations s.ignored procs).foldl (observe_one now)
      { store := s.proc_files, closedKeys := s.proc_files.map Prod.fst,
        hilite := [], changes := [] }).store k :=
    observe_fold_posNoneAt now _ _ k hno hpos
  generalize hC1 : (observations s.ignored procs).foldl (observe_one now)
      { store := s.proc_files, closedKeys := s.proc_files.map Prod.fst,
        hilite := [], changes := [] } = c1 at h1 ⊢
  have h2 := close_fold_posNoneAt now c1.closedKeys c1 k h1
  generalize hC2 : c1.closedKeys.foldl (close_one now) c1 = c2 at h2 ⊢
  exact decay_fold_posNoneAt _ _ _ h2

/-- A first-time observation inserts the record without a table row, and no
later step of the pass assigns it one. -/
theorem observe_pass_insert (now : ℚ) (l : List (It × Obs)) (c : Cycle)
    (k : It) (o : Obs)
    (hnd : (l.map Prod.fst).Nodup) (hmem : (k, o) ∈ l)
    (habs : lookupF c.store k = none) :
    rowNoneAt (l.foldl (observe_one now) c).store k := by
  obtain ⟨l1, l2, rfl⟩ := List.append_of_mem hmem
  have hmap : (l1 ++ (k, o) :: l2).map Prod.fst
      = l1.map Prod.fst ++ k :: l2.map Prod.fst := by simp
  rw [hmap] at hnd
  have hks := (List.nodup_cons.mp (List.nodup_middle.mp hnd)).1
  have hk1 : k ∉ l1.map Prod.fst := fun h => hks (List.mem_append_left _ h)
  have hk2 : k ∉ l2.map Prod.fst := fun h => hks (List.mem_append_right _ h)
  rw [List.foldl_append, List.foldl_cons]
  have habs1 : lookupF (l1.foldl (observe_one now) c).store k = none :=
    entryTweak_none_of _ _ (observe_fold_lookup_ne now l1 c k hk1) habs
  have habs1' : lookupF (l1.foldl (observe_one now) c).store ((k, o).1) = none := habs1
  rw [observe_one_eq_new now _ (k, o) habs1']
  refine observe_fold_rowNoneAt now l2 _ k hk2 ?_
  intro g hg
  show g.table_row = none
  rw [lookupF_append_of_none _ _ _ habs1] at hg
  have : lookupF [((k, o).1, File.mkNew (k, o).2.name (k, o).2.pos (k, o).2.size now)] k
      = some (File.mkNew o.name o.pos o.size now) := by
    simp [lookupF]
  rw [this] at hg
  have hgm : g = File.mkNew o.name o.pos o.size now := Option.some_injective _ hg.symm
  rw [hgm]
  rfl

/-- An identity absent from the store at the start of a cycle is never
visible at the end of that cycle. -/
theorem update_table_absent_rowNone (s : AppState) (procs : List Process)
    (now : ℚ) (k : It)
    (hnd : ((observations s.ignored procs).map Prod.fst).Nodup)
    (habs : lookupF s.proc_files k = none) :
    rowNoneAt (update_table s procs now).1.proc_files k := by
  simp only [update_table]
  by_cases hmemk : k ∈ (observations s.ignored procs).map Prod.fst
  · obtain ⟨x, hx, hx1⟩ := List.mem_map.mp hmemk
    have hkx : (k, x.2) ∈ observations s.ignored procs := by
      rw [← hx1]
      simpa using hx
    have hrn1 : rowNoneAt ((observations s.ignored procs).foldl (observe_one now)
        { store := s.proc_files, closedKeys := s.proc_files.map Prod.fst,
          hilite := [], changes := [] }).store k :=
      observe_pass_insert now _ _ k x.2 hnd hkx habs
    have hnck1 : k ∉ ((observations s.ignored procs).foldl (observe_one now)
        { store := s.proc_files, closedKeys := s.proc_files.map Prod.fst,
          hilite := [], changes := [] }).closedKeys := by
      refine observe_fold_closedKeys_not_mem now _ _ k ?_
      show k ∉ s.proc_files.map Prod.fst
      exact (lookupF_eq_none_iff _ _).mp habs
    generalize hC1 : (observations s.ignored procs).foldl (observe_one now)
        { store := s.proc_files, closedKeys := s.proc_files.map Prod.fst,
          hilite := [], changes := [] } = c1 at hrn1 hnck1 ⊢
    have hrn2 := close_fold_rowNoneAt_ne now c1.closedKeys c1 k hnck1 hrn1
    generalize hC2 : c1.closedKeys.foldl (close_one now) c1 = c2 at hrn2 ⊢
    exact decay_fold_rowNoneAt _ _ _ hrn2
  · have habs1 : lookupF ((observations s.ignored procs).foldl (observe_one now)
        { store := s.proc_files, closedKeys := s.proc_files.map Prod.fst,
          hilite := [], changes := [] }).store k = none :=
      entryTweak_none_of _ _ (observe_fold_lookup_ne now _ _ k hmemk) habs
    generalize hC1 : (observations s.ignored procs).foldl (observe_one now)
        { store := s.proc_files, closedKeys := s.proc_files.map Prod.fst,
          hilite := [], changes := [] } = c1 at habs1 ⊢
    have habs2 := close_fold_none now c1.closedKeys c1 k habs1
    generalize hC2 : c1.closedKeys.foldl (close_one now) c1 = c2 at habs2 ⊢
    intro g hg
    rw [decay_fold_none _ _ _ habs2] at hg
    exact Option.noConfusion hg

theorem posAt_of_entryTweak (m m' : Store) (k : It) (v : Option Int)
    (h : entryTweak (lookupF m k) (lookupF m' k)) (hr : posAt m k v) :
    posAt m' k v := by
  intro g hg
  rcases h with ⟨_, hb⟩ | ⟨f, g', ha, hb, hro⟩
  · rw [hg] at hb
    exact Option.noConfusion hb
  · rw [hg] at hb
    have hgg : g = g' := Option.some_injective _ hb
    rw [hgg, hro.2.1]
    exact hr f ha

theorem decay_one_posAt (acc : Store × List Change) (j k : It) (v : Option Int)
    (h : posAt acc.1 k v) : posAt (decay_one acc j).1 k v := by
  by_cases hj : j = k
  · subst hj
    cases hl : lookupF acc.1 j with
    | none =>
      rw [decay_one_eq_absent acc j hl]
      exact h
    | some f =>
      cases hr : f.table_row with
      | none =>
        rw [decay_one_eq_norow acc j f hl hr]
        exact h
      | some row =>
        by_cases hc : 0 < f.keep_countdown - 1
        · rw [decay_one_eq_tick acc j f row hl hr hc]
          intro g hg
          rw [lookupF_setF_self _ _ _ _ hl] at hg
          have : g = { f with keep_countdown := f.keep_countdown - 1 } :=
            Option.some_injective _ hg.symm
          rw [this]
          exact h f hl
        · rw [decay_one_eq_evict acc j f row hl hr hc]
          intro g hg
          show g.pos = v
          unfold remove_row at hg
          rw [lookupF_mapVals, lookupF_setF_self _ _ _ _ hl] at hg
          have : g = dropAbove row
              { f with keep_countdown := f.keep_countdown - 1, table_row := none } :=
            Option.some_injective _ hg.symm
          rw [this, (rowOnly_dropAbove row _).2.1]
          exact h f hl
  · exact posAt_of_entryTweak _ _ _ _
      (decay_one_lookup_ne acc j k (fun he => hj he.symm)) h

theorem decay_fold_posAt (l : List It) (acc : Store × List Change) (k : It)
    (v : Option Int) (h : posAt acc.1 k v) :
    posAt (l.foldl decay_one acc).1 k v := by
  induction l generalizing acc with
  | nil => exact h
  | cons j l ih =>
    rw [List.foldl_cons]
    exact ih _ (decay_one_posAt acc j k v h)

/-- A closed record whose identity reappears in a snapshot is reopened: its
position becomes the newly observed one. -/
theorem update_table_reopen (s : AppState) (procs : List Process) (now : ℚ)
    (k : It) (o : Obs) (f : File)
    (hnd : ((observations s.ignored procs).map Prod.fst).Nodup)
    (hmem : (k, o) ∈ observations s.ignored procs)
    (hl : lookupF s.proc_files k = some f) (hpos : f.pos = none) :
    ∃ g, lookupF (update_table s procs now).1.proc_files k = some g
      ∧ g.pos = some o.pos := by
  have hne : ¬ (f.pos = some o.pos ∧ f.size = o.size) := by
    rw [hpos]
    rintro ⟨hcontra, -⟩
    exact Option.noConfusion hcontra
  obtain ⟨⟨g1, hg1, hup1⟩, hhil1, hnck1, -⟩ :=
    observe_pass_update now (observations s.ignored procs)
      { store := s.proc_files, closedKeys := s.proc_files.map Prod.fst,
        hilite := [], changes := [] } k o f hnd hmem hl hne
  simp only [update_table]
  generalize hC1 : (observations s.ignored procs).foldl (observe_one now)
      { store := s.proc_files, closedKeys := s.proc_files.map Prod.fst,
        hilite := [], changes := [] } = c1 at hg1 hnck1 ⊢
  have h2 := close_fold_lookup_ne now c1.closedKeys c1 k hnck1
  rw [hg1] at h2
  rcases h2 with ⟨h2a, _⟩ | ⟨g1', g2, h2a, h2b, hro2⟩
  · exact Option.noConfusion h2a
  have hg1' : g1' = g1 := (Option.some_injective _ h2a).symm
  rw [hg1'] at hro2
  generalize hC2 : c1.closedKeys.foldl (close_one now) c1 = c2 at h2b ⊢
  have hsome : ∃ g, lookupF (c2.store, ([] : List Change)).1 k = some g := ⟨g2, h2b⟩
  have hposv : posAt (c2.store, ([] : List Change)).1 k (some o.pos) := by
    intro g hg
    have : g = g2 := Option.some_injective _ (hg.symm.trans h2b)
    rw [this, hro2.2.1]
    exact hup1.2.1
  obtain ⟨g5, hg5⟩ := decay_fold_isSome (c2.store.map Prod.fst) (c2.store, []) k hsome
  exact ⟨g5, hg5, decay_fold_posAt (c2.store.map Prod.fst) (c2.store, []) k _ hposv g5 hg5⟩

/-! ### Claim theorems over the reconcile engine -/

/-- C1: in every reconcile cycle a tracked identity is promoted to visible
(assigned a `table_row`) only when its observed position or size differs
from the values stored from the previous cycle, and an identity observed
for the first time is never assigned a row on that first cycle, whatever
its position and size are.  (The snapshot is assumed to observe each
identity at most once, as `/proc` scans do.) -/
theorem promotion_only_on_change (s : AppState) (procs : List Process)
    (now : ℚ) (k : It)
    (hnd : ((observations s.ignored procs).map Prod.fst).Nodup) :
    (lookupF s.proc_files k = none →
      ∀ f', lookupF (update_table s procs now).1.proc_files k = some f' →
        f'.table_row = none)
    ∧ (∀ f f', lookupF s.proc_files k = some f → f.table_row = none →
        lookupF (update_table s procs now).1.proc_files k = some f' →
        f'.table_row ≠ none →
        ∃ o, (k, o) ∈ observations s.ignored procs ∧
          ¬ (f.pos = some o.pos ∧ f.size = o.size)) := by
  constructor
  · intro habs f' hf'
    exact update_table_absent_rowNone s procs now k hnd habs f' hf'
  · intro f f' hl hrow hf' hne
    by_cases hex : ∃ o, (k, o) ∈ observations s.ignored procs ∧
        ¬ (f.pos = some o.pos ∧ f.size = o.size)
    · exact hex
    · exfalso
      push_neg at hex
      by_cases hmemk : k ∈ (observations s.ignored procs).map Prod.fst
      · obtain ⟨x, hx, hx1⟩ := List.mem_map.mp hmemk
        have hkx : (k, x.2) ∈ observations s.ignored procs := by
          rw [← hx1]
          simpa using hx
        exact hne (update_table_nochange_norow s procs now k x.2 f hnd hkx hl
          (hex x.2 hkx) hrow f' hf')
      · rw [update_table_unobserved_norow s procs now k f hl hrow hmemk] at hf'
        exact Option.noConfusion hf'

/-- C2: an identity absent from the filtered snapshot is (a) deleted
outright during that same reconcile if it holds no table row; (b) left
untouched by the closed pass if its position is already absent; (c)
otherwise its position is set to absent, its countdown refreshed to the
maximum, its row kept, an update-row change emitted, and it joins the
cycle's highlight set — with every other store entry untouched by that
step. -/
theorem closed_identity_handling :
    (∀ (s : AppState) (procs : List Process) (now : ℚ) (k : It) (f : File),
      lookupF s.proc_files k = some f → f.table_row = none →
      k ∉ (observations s.ignored procs).map Prod.fst →
      lookupF (update_table s procs now).1.proc_files k = none)
    ∧ (∀ (now : ℚ) (c : Cycle) (k : It) (f : File) (r : Int),
        lookupF c.store k = some f → f.table_row = some r → f.pos = none →
        close_one now c k = c)
    ∧ (∀ (now : ℚ) (c : Cycle) (k : It) (f : File) (r : Int),
        lookupF c.store k = some f → f.table_row = some r → f.pos ≠ none →
        lookupF (close_one now c k).store k
            = some { f with pos := none, keep_countdown := KEEP_COUNTDOWN }
          ∧ ({ f with pos := none, keep_countdown := KEEP_COUNTDOWN } : File).table_row
            = some r
          ∧ (∀ k', k' ≠ k →
              lookupF (close_one now c k).store k' = lookupF c.store k')
          ∧ k ∈ (close_one now c k).hilite
          ∧ (close_one now c k).changes = c.changes ++
              [Change.updateRow k
                { f with pos := none, keep_countdown := KEEP_COUNTDOWN } r now]) := by
  refine ⟨?_, ?_, ?_⟩
  · intro s procs now k f hl hr hno
    exact update_table_unobserved_norow s procs now k f hl hr hno
  · intro now c k f r hl hr hp
    exact close_one_eq_closed now c k f r hl hr hp
  · intro now c k f r hl hr hp
    rw [close_one_eq_close now c k f r hl hr hp]
    have hm1 : lookupF (setF c.store k { f with pos := none }) k
        = some { f with pos := none } := lookupF_setF_self _ _ _ _ hl
    have hr1 : ({ f with pos := none } : File).table_row = some r := hr
    rw [update_row_eq_row _ _ now _ r hm1 hr1]
    refine ⟨lookupF_setF_self _ _ _ _ hm1, hr, ?_, addKey_self _ _, rfl⟩
    intro k' hk'
    show lookupF (setF (setF c.store k { f with pos := none }) k _) k' = _
    rw [lookupF_setF_ne _ _ _ _ hk', lookupF_setF_ne _ _ _ _ hk']

/-- C3: in the decay pass, every record holding a table row has its
countdown decremented; while the countdown stays positive nothing else
changes, and when it reaches zero the row is cleared, every other record
with a larger row index is compacted down by one (`dropAbove`), and the
record itself stays in the store; records without a row are untouched. -/
theorem decay_step_behaviour :
    (∀ (acc : Store × List Change) (k : It) (f : File),
      lookupF acc.1 k = some f → f.table_row ≠ none →
      ∃ g, lookupF (decay_one acc k).1 k = some g
        ∧ g.keep_countdown = f.keep_countdown - 1)
    ∧ (∀ (acc : Store × List Change) (k : It) (f : File) (r : Int),
        lookupF acc.1 k = some f → f.table_row = some r →
        0 < f.keep_countdown - 1 →
        lookupF (decay_one acc k).1 k
            = some { f with keep_countdown := f.keep_countdown - 1 }
          ∧ ∀ k', k' ≠ k → lookupF (decay_one acc k).1 k' = lookupF acc.1 k')
    ∧ (∀ (acc : Store × List Change) (k : It) (f : File) (r : Int),
        lookupF acc.1 k = some f → f.table_row = some r →
        f.keep_countdown - 1 ≤ 0 →
        lookupF (decay_one acc k).1 k
            = some { f with keep_countdown := f.keep_countdown - 1,
                            table_row := none }
          ∧ ∀ k' g, k' ≠ k → lookupF acc.1 k' = some g →
              lookupF (decay_one acc k).1 k' = some (dropAbove r g))
    ∧ (∀ (acc : Store × List Change) (k : It) (f : File),
        lookupF acc.1 k = some f → f.table_row = none → decay_one acc k = acc) := by
  refine ⟨?_, ?_, ?_, ?_⟩
  · intro acc k f hl hr
    cases hrow : f.table_row with
    | none => exact absurd hrow hr
    | some r =>
      by_cases hc : 0 < f.keep_countdown - 1
      · rw [decay_one_eq_tick acc k f r hl hrow hc]
        exact ⟨_, lookupF_setF_self _ _ _ _ hl, rfl⟩
      · rw [decay_one_eq_evict acc k f r hl hrow hc]
        refine ⟨dropAbove r
          { f with keep_countdown := f.keep_countdown - 1, table_row := none }, ?_, ?_⟩
        · show lookupF (remove_row (setF acc.1 k _) r) k = _
          unfold remove_row
          rw [lookupF_mapVals, lookupF_setF_self _ _ _ _ hl]
          rfl
        · exact (rowOnly_dropAbove r _).2.2.2.2.2.2.1
  · intro acc k f r hl hr hc
    rw [decay_one_eq_tick acc k f r hl hr hc]
    refine ⟨lookupF_setF_self _ _ _ _ hl, ?_⟩
    intro k' hk'
    exact lookupF_setF_ne _ _ _ _ hk'
  · intro acc k f r hl hr hc
    rw [decay_one_eq_evict acc k f r hl hr (not_lt.mpr hc)]
    constructor
    · show lookupF (remove_row (setF acc.1 k _) r) k = _
      unfold remove_row
      rw [lookupF_mapVals, lookupF_setF_self _ _ _ _ hl]
      rfl
    · intro k' g hk' hg
      show lookupF (remove_row (setF acc.1 k _) r) k' = _
      unfold remove_row
      rw [lookupF_mapVals, lookupF_setF_ne _ _ _ _ hk', hg]
      rfl
  · intro acc k f hl hr
    exact decay_one_eq_norow acc k f hl hr

/-- C4 (counterexample): on the concrete run, the second cycle observes a
changed position (0 to 500), yet the record's countdown at the end of that
cycle is 119, not the maximum 120 — the decay pass decrements the countdown
that `update_row` had just refreshed. -/
theorem ttl_not_max_after_change_cycle :
    (lookupF exState1.proc_files exIt).map File.pos = some (some 0)
    ∧ (lookupF exState2.proc_files exIt).map File.pos = some (some 500)
    ∧ (lookupF exState2.proc_files exIt).map File.keep_countdown = some 119
    ∧ ((119 : Int) = KEEP_COUNTDOWN) = False := by
  refine ⟨by decide, by decide, by decide, by decide⟩

/-- C4 (amended): `update_row` refreshes the countdown to the maximum
whenever position or size changed; the decay pass then decrements the
countdown of exactly the records holding a table row, once per cycle
(row-less records are not decremented); hence at the end of a cycle in
which an identity's position or size changed its countdown equals
maximum − 1. -/
theorem ttl_refresh_and_decay :
    (∀ (s : AppState) (procs : List Process) (now : ℚ) (k : It) (o : Obs) (f : File),
      ((observations s.ignored procs).map Prod.fst).Nodup →
      NodupKeys s.proc_files →
      (k, o) ∈ observations s.ignored procs →
      lookupF s.proc_files k = some f →
      ¬ (f.pos = some o.pos ∧ f.size = o.size) →
      ∃ g, lookupF (update_table s procs now).1.proc_files k = some g
        ∧ g.keep_countdown = KEEP_COUNTDOWN - 1 ∧ g.table_row ≠ none)
    ∧ (∀ (m : Store) (k : It) (now : ℚ) (f : File),
        lookupF m k = some f →
        ∃ row, lookupF (update_row m k now).1 k
          = some { f with table_row := some row, keep_countdown := KEEP_COUNTDOWN })
    ∧ (∀ (acc : Store × List Change) (k : It) (f : File),
        lookupF acc.1 k = some f → f.table_row = none → decay_one acc k = acc)
    ∧ (∀ (acc : Store × List Change) (k : It) (f : File) (r : Int),
        lookupF acc.1 k = some f → f.table_row = some r →
        ∃ g, lookupF (decay_one acc k).1 k = some g
          ∧ g.keep_countdown = f.keep_countdown - 1) := by
  refine ⟨?_, ?_, ?_, ?_⟩
  · intro s procs now k o f hnd hndk hmem hl hne
    obtain ⟨⟨g, hg, _, _, _, _, _, _, ⟨r, hr⟩, hkc⟩, -, -⟩ :=
      update_table_self_update s procs now k o f hnd hndk hmem hl hne
    refine ⟨g, hg, hkc, ?_⟩
    rw [hr]
    exact fun h => Option.noConfusion h
  · intro m k now f hl
    obtain ⟨row, hg, -⟩ := update_row_self m k now f hl
    exact ⟨row, hg⟩
  · intro acc k f hl hr
    exact decay_one_eq_norow acc k f hl hr
  · intro acc k f r hl hr
    by_cases hc : 0 < f.keep_countdown - 1
    · rw [decay_one_eq_tick acc k f r hl hr hc]
      exact ⟨_, lookupF_setF_self _ _ _ _ hl, rfl⟩
    · rw [decay_one_eq_evict acc k f r hl hr hc]
      refine ⟨dropAbove r
        { f with keep_countdown := f.keep_countdown - 1, table_row := none }, ?_, ?_⟩
      · show lookupF (remove_row (setF acc.1 k _) r) k = _
        unfold remove_row
        rw [lookupF_mapVals, lookupF_setF_self _ _ _ _ hl]
        rfl
      · exact (rowOnly_dropAbove r _).2.2.2.2.2.2.1

/-- C5 (counterexample): on the concrete run the identity is closed
(position absent) after the third cycle, and reappears in the fourth
snapshot; the reconcile then sets its position back to a present value
(700) under the same identity. -/
theorem closed_position_resurrected :
    (lookupF exState3.proc_files exIt).map File.pos = some none
    ∧ (lookupF exState4.proc_files exIt).map File.pos = some (some 700) := by
  exact ⟨by decide, by decide⟩

/-- C5 (amended): a record whose position is absent keeps an absent
position through every cycle in which its identity is not observed (or is
deleted outright); but if the identity reappears in a snapshot, the record
is reopened — its position is set to the newly observed value. -/
theorem closed_stays_closed_unless_reobserved :
    (∀ (s : AppState) (procs : List Process) (now : ℚ) (k : It),
      posNoneAt s.proc_files k →
      k ∉ (observations s.ignored procs).map Prod.fst →
      posNoneAt (update_table s procs now).1.proc_files k)
    ∧ (∀ (s : AppState) (procs : List Process) (now : ℚ) (k : It) (o : Obs) (f : File),
        ((observations s.ignored procs).map Prod.fst).Nodup →
        (k, o) ∈ observations s.ignored procs →
        lookupF s.proc_files k = some f → f.pos = none →
        ∃ g, lookupF (update_table s procs now).1.proc_files k = some g
          ∧ g.pos = some o.pos) := by
  constructor
  · intro s procs now k hpos hno
    exact update_table_posNoneAt s procs now k hpos hno
  · intro s procs now k o f hnd hmem hl hpos
    exact update_table_reopen s procs now k o f hnd hmem hl hpos

/-- C8: hide-all clears the table row of every tracked record
unconditionally and changes nothing else in the engine state: the ignore
set is untouched, and every record stays in the store with identical
fields apart from the cleared row (so it remains eligible for promotion on
later activity). -/
theorem hide_all_frame :
    ∀ s : AppState,
      (hide_all_rows s).ignored = s.ignored
      ∧ (∀ k, lookupF (hide_all_rows s).proc_files k
          = (lookupF s.proc_files k).map (fun f => { f with table_row := none }))
      ∧ (hide_all_rows s).proc_files.map Prod.fst = s.proc_files.map Prod.fst
      ∧ ∀ k f, lookupF s.proc_files k = some f →
          lookupF (hide_all_rows s).proc_files k
            = some { f with table_row := none } := by
  intro s
  simp only [hide_all_rows]
  refine ⟨trivial, ?_, ?_, ?_⟩
  · intro k
    exact lookupF_mapVals _ _ _
  · exact keys_mapVals _ _
  · intro k f hf
    rw [lookupF_mapVals, hf]
    rfl

/-- Witness for C1 at a concrete input: the identity first observed in
cycle 1 carries no table row afterwards. -/
theorem promotion_only_on_change_witness :
    (File.mkNew "f" 0 1000 0).table_row = none :=
  (promotion_only_on_change exState0 exProcs1 0 exIt (by decide)).1
    (by decide) (File.mkNew "f" 0 1000 0) (by decide)

/-- Witness for C2 at a concrete input: closing a visible record sets its
position absent, refreshes the countdown, and keeps its row. -/
theorem closed_identity_handling_witness :
    lookupF (close_one 20
        { store := [(exIt,
            { name := "f", pos := some 500, size := 1000, first_pos := 0,
              first_size := 1000, first_timestamp := 0, table_row := some 0,
              keep_countdown := 118 })],
          closedKeys := [exIt], hilite := [], changes := [] } exIt).store exIt
      = some { name := "f", pos := none, size := 1000, first_pos := 0,
               first_size := 1000, first_timestamp := 0, table_row := some 0,
               keep_countdown := KEEP_COUNTDOWN } :=
  (closed_identity_handling.2.2 20
    { store := [(exIt,
        { name := "f", pos := some 500, size := 1000, first_pos := 0,
          first_size := 1000, first_timestamp := 0, table_row := some 0,
          keep_countdown := 118 })],
      closedKeys := [exIt], hilite := [], changes := [] } exIt
    { name := "f", pos := some 500, size := 1000, first_pos := 0,
      first_size := 1000, first_timestamp := 0, table_row := some 0,
      keep_countdown := 118 } 0 (by decide) (by decide) (by decide)).1

/-- Witness for C3 at a concrete input: a visible record's countdown is
decremented by the decay step. -/
theorem decay_step_behaviour_witness :
    lookupF (decay_one ([(exIt,
        { name := "f", pos := some 500, size := 1000, first_pos := 0,
          first_size := 1000, first_timestamp := 0, table_row := some 0,
          keep_countdown := 118 })], []) exIt).1 exIt
      = some { name := "f", pos := some 500, size := 1000, first_pos := 0,
               first_size := 1000, first_timestamp := 0, table_row := some 0,
               keep_countdown := 117 } :=
  (decay_step_behaviour.2.1 ([(exIt,
      { name := "f", pos := some 500, size := 1000, first_pos := 0,
        first_size := 1000, first_timestamp := 0, table_row := some 0,
        keep_countdown := 118 })], []) exIt
    { name := "f", pos := some 500, size := 1000, first_pos := 0,
      first_size := 1000, first_timestamp := 0, table_row := some 0,
      keep_countdown := 118 } 0 (by decide) (by decide) (by decide)).1

/-- Witness for the amended C4 at a concrete input: after the cycle that
observed the position change, the record's countdown is the maximum minus
one and it holds a row. -/
theorem ttl_refresh_and_decay_witness :
    ∃ g, lookupF (update_table exState1 exProcs2 10).1.proc_files exIt = some g
      ∧ g.keep_countdown = KEEP_COUNTDOWN - 1 ∧ g.table_row ≠ none :=
  ttl_refresh_and_decay.1 exState1 exProcs2 10 exIt
    { name := "f", pos := 500, size := 1000 } (File.mkNew "f" 0 1000 0)
    (by decide)
    (by show (exState1.proc_files.map Prod.fst).Nodup; decide)
    (by decide) (by decide) (by decide)

/-- Witness for the amended C5 at a concrete input: the closed record of
cycle 3 is reopened by the observation of cycle 4, its position becoming
700. -/
theorem closed_stays_closed_witness :
    ∃ g, lookupF (update_table exState3 exProcs4 30).1.proc_files exIt = some g
      ∧ g.pos = some (700 : Int) :=
  closed_stays_closed_unless_reobserved.2 exState3 exProcs4 30 exIt
    { name := "f", pos := 700, size := 1000 }
    { name := "f", pos := none, size := 1000, first_pos := 0,
      first_size := 1000, first_timestamp := 0, table_row := some 0,
      keep_countdown := 119 }
    (by decide) (by decide) (by decide) (by decide)

/-! ### The scenario rendering of the second example cycle -/

theorem percentage_at_half : percentage (some 500) 1000 = "50%" := by
  simp only [percentage]
  rw [if_neg (by decide : ¬ (1000 : Int) = 0)]
  rw [pyReplaceDotZero_fmt1]
  have hq : (100 * ((500 : Int) : ℚ) / ((1000 : Int) : ℚ)) = 50 := by
    push_cast
    norm_num
  rw [hq]
  have h1 : |(50 : ℚ)| * 10 = 500 := by norm_num
  have h2 : round ((500 : ℚ)) = 500 := by norm_num
  simp only [specPercentRender, fmt1dig, fmt1int, fmt1sign, h1, h2]
  norm_num
  decide

theorem rate_more_at_half : rate_more exFile2 10 = ("50B/s", "0:10") := by
  simp only [rate_more, exFile2]
  norm_num
  have h1 : pyTrunc 10 = 10 := by
    unfold pyTrunc
    rw [if_neg (by norm_num : ¬ (10 : ℚ) < 0)]
    norm_num
  have h2 : to_si 50 = "50" := by
    unfold to_si
    rw [if_pos (by norm_num : (50 : ℚ).den = 1),
        show (50 : ℚ).num = 50 by norm_num]
    decide
  rw [h1, h2]
  exact ⟨rfl, by decide⟩

theorem render_at_half :
    render exFile2 0 10
      = { row := 0, closed := false, percent := "50%", rate := "50B/s",
          more_time := "0:10" } := by
  simp only [render]
  rw [rate_more_at_half]
  simp only [exFile2]
  simp [percentage_at_half]

/-- C7: the rendered rate is `-` when the elapsed time since the anchor is
zero or the position is absent, and otherwise is
`(position - anchorPosition) / elapsed` bytes per second, rendered only if
positive; the ETA is rendered only when the rate is positive and
`size - position` is positive, as `minutes:seconds` with the seconds
zero-padded to two digits, seconds being the truncated `remaining / rate`.
In the concrete scenario — first observed at time 0 with position 0 and
size 1000, observed at time 10 with position 500 — the second cycle emits
an update-row change whose rendering is percent `50%`, rate `50B/s`, ETA
`0:10`. -/
theorem rate_and_eta_rendering :
    (∀ (f : File) (now : ℚ), f.pos = none → rate_more f now = ("-", "-"))
    ∧ (∀ (f : File) (now : ℚ) (p : Int), f.pos = some p →
        now - f.first_timestamp = 0 → rate_more f now = ("-", "-"))
    ∧ (∀ (f : File) (now : ℚ) (p : Int), f.pos = some p →
        now - f.first_timestamp ≠ 0 →
        ((p : ℚ) - (f.first_pos : ℚ)) / (now - f.first_timestamp) ≤ 0 →
        rate_more f now = ("-", "-"))
    ∧ (∀ (f : File) (now : ℚ) (p : Int), f.pos = some p →
        now - f.first_timestamp ≠ 0 →
        0 < ((p : ℚ) - (f.first_pos : ℚ)) / (now - f.first_timestamp) →
        (rate_more f now).1
          = to_si (((p : ℚ) - (f.first_pos : ℚ)) / (now - f.first_timestamp)) ++ "B/s"
        ∧ (f.size - p ≤ 0 → (rate_more f now).2 = "-")
        ∧ (0 < f.size - p → (rate_more f now).2 =
            intToString (Int.fdiv (pyTrunc (((f.size - p : Int) : ℚ) /
                (((p : ℚ) - (f.first_pos : ℚ)) / (now - f.first_timestamp)))) 60)
              ++ ":" ++
              pad2 (Int.fmod (pyTrunc (((f.size - p : Int) : ℚ) /
                (((p : ℚ) - (f.first_pos : ℚ)) / (now - f.first_timestamp)))) 60)))
    ∧ Change.updateRow exIt exFile2 0 10 ∈ (update_table exState1 exProcs2 10).2
    ∧ render exFile2 0 10
        = { row := 0, closed := false, percent := "50%", rate := "50B/s",
            more_time := "0:10" } := by
  refine ⟨?_, ?_, ?_, ?_, by decide, render_at_half⟩
  · intro f now hpos
    simp only [rate_more, hpos]
  · intro f now p hpos helapsed
    simp only [rate_more, hpos]
    rw [if_pos helapsed]
  · intro f now p hpos helapsed hle
    simp only [rate_more, hpos]
    rw [if_neg helapsed, if_neg (not_lt.mpr hle)]
  · intro f now p hpos helapsed hpos'
    simp only [rate_more, hpos]
    rw [if_neg helapsed, if_pos hpos']
    refine ⟨?_, ?_, ?_⟩
    · by_cases hmb : 0 < f.size - p
      · rw [if_pos hmb]
      · rw [if_neg hmb]
    · intro hle
      rw [if_neg (not_lt.mpr hle)]
    · intro hmb
      rw [if_pos hmb]

/-- Witness for C7 at a concrete input: a record with an absent position
renders rate and ETA as `-`. -/
theorem rate_and_eta_rendering_witness :
    rate_more ({ name := "f", pos := none, size := 1000, first_pos := 0,
                 first_size := 1000, first_timestamp := 0, table_row := some 0,
                 keep_countdown := 119 } : File) 20 = ("-", "-") :=
  rate_and_eta_rendering.1 _ 20 rfl

/-! ### The row-slot invariant (C9) -/

theorem rowInvList_perm (L L' : List Int) (hp : L.Perm L') (h : RowInvList L) :
    RowInvList L' := by
  obtain ⟨hnd, hb⟩ := h
  refine ⟨hp.nodup hnd, ?_⟩
  intro r hr
  rw [← hp.length_eq]
  exact hb r (hp.mem_iff.mpr hr)

/-- Inserting a fresh row `0` at the top after shifting every row down by
one preserves the invariant. -/
theorem rowInvList_promote (L1 L2 : List Int)
    (h : RowInvList (L1 ++ L2)) :
    RowInvList (L1.map (· + 1) ++ 0 :: L2.map (· + 1)) := by
  have hperm : (L1.map (· + 1) ++ 0 :: L2.map (· + 1)).Perm
      (0 :: (L1 ++ L2).map (· + 1)) := by
    rw [List.map_append]
    exact List.perm_middle
  refine rowInvList_perm _ _ hperm.symm ?_
  obtain ⟨hnd, hb⟩ := h
  constructor
  · rw [List.nodup_cons]
    constructor
    · intro hmem
      obtain ⟨r, hr, hr0⟩ := List.mem_map.mp hmem
      have := hb r hr
      omega
    · exact hnd.map (fun a b => by omega)
  · intro r hr
    rcases List.mem_cons.mp hr with rfl | hr
    · simp only [List.length_cons, List.length_map, List.length_append]
      omega
    · obtain ⟨x, hx, hx1⟩ := List.mem_map.mp hr
      have hxb := hb x hx
      rw [List.length_append] at hxb
      simp only [List.length_cons, List.length_map, List.length_append]
      omega

/-- Removing the row `row` and compacting every larger row down by one
preserves the invariant. -/
theorem rowInvList_evict (L1 L2 : List Int) (row : Int)
    (h : RowInvList (L1 ++ row :: L2)) :
    RowInvList ((L1 ++ L2).map (fun r => if row < r then r - 1 else r)) := by
  obtain ⟨hnd, hb⟩ := h
  have hnd' := List.nodup_middle.mp hnd
  have hrow : row ∉ L1 ++ L2 := (List.nodup_cons.mp hnd').1
  have hndL : (L1 ++ L2).Nodup := (List.nodup_cons.mp hnd').2
  have hmem : ∀ x ∈ L1 ++ L2, x ∈ L1 ++ row :: L2 := by
    intro x hx
    rcases List.mem_append.mp hx with hx | hx
    · exact List.mem_append_left _ hx
    · exact List.mem_append_right _ (List.mem_cons_of_mem _ hx)
  have hlen : (L1 ++ row :: L2).length = (L1 ++ L2).length + 1 := by
    simp only [List.length_append, List.length_cons]
    omega
  have hrowmem : row ∈ L1 ++ row :: L2 :=
    List.mem_append_right _ (List.mem_cons_self _ _)
  have hrowb := hb row hrowmem
  constructor
  · refine List.Nodup.map_on ?_ hndL
    intro x hx y hy hxy
    have hxb := hb x (hmem x hx)
    have hyb := hb y (hmem y hy)
    have hxr : x ≠ row := fun he => hrow (he ▸ hx)
    have hyr : y ≠ row := fun he => hrow (he ▸ hy)
    by_cases h1 : row < x <;> by_cases h2 : row < y <;>
      simp only [if_pos, if_neg, h1, h2, if_true, if_false] at hxy <;> omega
  · intro r hr
    obtain ⟨x, hx, hx1⟩ := List.mem_map.mp hr
    have hxb := hb x (hmem x hx)
    have hxr : x ≠ row := fun he => hrow (he ▸ hx)
    rw [List.length_map]
    rw [hlen] at hxb
    by_cases h1 : row < x <;>
      simp only [if_pos, if_neg, h1, if_true, if_false] at hx1 <;> omega

theorem rowsOf_append (m1 m2 : Store) :
    rowsOf (m1 ++ m2) = rowsOf m1 ++ rowsOf m2 := by
  unfold rowsOf
  exact List.filterMap_append _ _ _

theorem rowsOf_cons (p : It × File) (m : Store) :
    rowsOf (p :: m) = p.2.table_row.toList ++ rowsOf m := by
  unfold rowsOf
  cases h : p.2.table_row with
  | none => simp [List.filterMap_cons, h]
  | some r => simp [List.filterMap_cons, h]

theorem mapVals_append (g : File → File) (m1 m2 : Store) :
    mapVals g (m1 ++ m2) = mapVals g m1 ++ mapVals g m2 := by
  unfold mapVals
  exact List.map_append _ _ _

theorem setF_not_mem (m : Store) (k : It) (f : File)
    (h : k ∉ m.map Prod.fst) : setF m k f = m := by
  induction m with
  | nil => rfl
  | cons p m ih =>
    have h1 : ¬ p.1 = k := by
      intro he
      exact h (by rw [List.map_cons, he]; exact List.mem_cons_self _ _)
    have h2 : k ∉ m.map Prod.fst := by
      intro hm
      exact h (by rw [List.map_cons]; exact List.mem_cons_of_mem _ hm)
    rw [setF, if_neg h1, ih h2]

theorem eraseF_not_mem (m : Store) (k : It)
    (h : k ∉ m.map Prod.fst) : eraseF m k = m := by
  induction m with
  | nil => rfl
  | cons p m ih =>
    have h1 : ¬ p.1 = k := by
      intro he
      exact h (by rw [List.map_cons, he]; exact List.mem_cons_self _ _)
    have h2 : k ∉ m.map Prod.fst := by
      intro hm
      exact h (by rw [List.map_cons]; exact List.mem_cons_of_mem _ hm)
    rw [eraseF, if_neg h1, ih h2]

theorem setF_append (m1 m2 : Store) (k : It) (f : File) :
    setF (m1 ++ m2) k f = setF m1 k f ++ setF m2 k f := by
  induction m1 with
  | nil => rfl
  | cons p m1 ih => rw [List.cons_append, setF, setF, ih, List.cons_append]

theorem eraseF_append (m1 m2 : Store) (k : It) :
    eraseF (m1 ++ m2) k = eraseF m1 k ++ eraseF m2 k := by
  induction m1 with
  | nil => rfl
  | cons p m1 ih =>
    rw [List.cons_append, eraseF, eraseF, ih]
    by_cases h : p.1 = k
    · rw [if_pos h, if_pos h]
    · rw [if_neg h, if_neg h, List.cons_append]

theorem rowsOf_mapVals_bump (m : Store) :
    rowsOf (mapVals bumpRow m) = (rowsOf m).map (· + 1) := by
  induction m with
  | nil => rfl
  | cons p m ih =>
    show rowsOf ((p.1, bumpRow p.2) :: mapVals bumpRow m) = _
    rw [rowsOf_cons, rowsOf_cons, ih]
    cases h : p.2.table_row with
    | none =>
      have hb : (bumpRow p.2).table_row = none := by simp [bumpRow, h]
      simp [hb]
    | some r =>
      have hb : (bumpRow p.2).table_row = some (r + 1) := by simp [bumpRow, h]
      simp [hb]

theorem rowsOf_remove_row (m : Store) (row : Int) :
    rowsOf (remove_row m row)
      = (rowsOf m).map (fun r => if row < r then r - 1 else r) := by
  induction m with
  | nil => rfl
  | cons p m ih =>
    show rowsOf ((p.1, dropAbove row p.2) :: mapVals (dropAbove row) m) = _
    rw [rowsOf_cons, rowsOf_cons]
    have ih' : rowsOf (mapVals (dropAbove row) m) = _ := ih
    rw [ih']
    cases h : p.2.table_row with
    | none =>
      have hb : (dropAbove row p.2).table_row = none := by simp [dropAbove, h]
      simp [hb]
    | some r =>
      by_cases hq : row < r
      · have hb : (dropAbove row p.2).table_row = some (r - 1) := by
          simp [dropAbove, h, hq]
        simp [hb, hq]
      · have hb : (dropAbove row p.2).table_row = some r := by
          simp [dropAbove, h, hq]
        simp [hb, hq]

/-- A present key of a duplicate-free store splits it around that entry. -/
theorem keyDecomp (m : Store) (k : It) (f : File)
    (hl : lookupF m k = some f) (hnd : NodupKeys m) :
    ∃ m1 m2, m = m1 ++ (k, f) :: m2
      ∧ k ∉ m1.map Prod.fst ∧ k ∉ m2.map Prod.fst := by
  induction m with
  | nil => exact Option.noConfusion hl
  | cons p m ih =>
    unfold NodupKeys at hnd
    rw [List.map_cons, List.nodup_cons] at hnd
    by_cases hk : p.1 = k
    · rw [lookupF, if_pos hk] at hl
      have hp : p = (k, f) := by
        obtain ⟨p1, p2⟩ := p
        have h2 : p2 = f := Option.some_injective _ hl
        simp only at hk
        rw [hk, h2]
      refine ⟨[], m, by rw [hp]; rfl, by simp, ?_⟩
      rw [← hk]
      exact hnd.1
    · rw [lookupF, if_neg hk] at hl
      obtain ⟨m1, m2, hm, h1, h2⟩ := ih hl hnd.2
      refine ⟨p :: m1, m2, by rw [hm]; rfl, ?_, h2⟩
      rw [List.map_cons]
      intro hmem
      rcases List.mem_cons.mp hmem with he | hmem2
      · exact hk he.symm
      · exact h1 hmem2

theorem setF_cons_self (g : File) (m : Store) (k : It) (f : File) :
    setF ((k, g) :: m) k f = (k, f) :: setF m k f := by
  rw [setF, if_pos rfl]

theorem eraseF_cons_self (g : File) (m : Store) (k : It) :
    eraseF ((k, g) :: m) k = eraseF m k := by
  rw [eraseF, if_pos rfl]

theorem rowsOf_setF_same_row (m : Store) (k : It) (f0 f1 : File)
    (hl : lookupF m k = some f0) (hnd : NodupKeys m)
    (hrow : f1.table_row = f0.table_row) :
    rowsOf (setF m k f1) = rowsOf m := by
  obtain ⟨m1, m2, rfl, h1, h2⟩ := keyDecomp m k f0 hl hnd
  rw [setF_append, setF_not_mem _ _ _ h1, setF_cons_self, setF_not_mem _ _ _ h2]
  rw [rowsOf_append, rowsOf_append, rowsOf_cons, rowsOf_cons]
  show rowsOf m1 ++ (f1.table_row.toList ++ rowsOf m2) = _
  rw [hrow]

theorem update_row_rowInv (m : Store) (k : It) (now : ℚ)
    (hnd : NodupKeys m) (hinv : RowInv m) : RowInv (update_row m k now).1 := by
  cases hl : lookupF m k with
  | none =>
    rw [update_row_eq_absent _ _ _ hl]
    exact hinv
  | some f0 =>
    cases hr : f0.table_row with
    | some row =>
      rw [update_row_eq_row _ _ _ _ row hl hr]
      show RowInv (setF m k { f0 with keep_countdown := KEEP_COUNTDOWN })
      unfold RowInv
      rw [rowsOf_setF_same_row m k f0
        { f0 with keep_countdown := KEEP_COUNTDOWN } hl hnd rfl]
      exact hinv
    | none =>
      rw [update_row_eq_norow _ _ _ _ hl hr]
      show RowInv (setF (mapVals bumpRow m) k
        { f0 with keep_countdown := KEEP_COUNTDOWN, table_row := some 0 })
      obtain ⟨m1, m2, rfl, h1, h2⟩ := keyDecomp m k f0 hl hnd
      rw [mapVals_append, setF_append]
      have h1' : k ∉ (mapVals bumpRow m1).map Prod.fst := by
        rw [keys_mapVals]
        exact h1
      have h2' : k ∉ (mapVals bumpRow m2).map Prod.fst := by
        rw [keys_mapVals]
        exact h2
      rw [setF_not_mem _ _ _ h1']
      rw [show mapVals bumpRow ((k, f0) :: m2)
          = (k, bumpRow f0) :: mapVals bumpRow m2 from rfl]
      rw [setF_cons_self, setF_not_mem _ _ _ h2']
      unfold RowInv
      rw [rowsOf_append, rowsOf_cons, rowsOf_mapVals_bump, rowsOf_mapVals_bump]
      show RowInvList ((rowsOf m1).map (· + 1) ++ 0 :: (rowsOf m2).map (· + 1))
      apply rowInvList_promote
      have he : rowsOf (m1 ++ (k, f0) :: m2) = rowsOf m1 ++ rowsOf m2 := by
        rw [rowsOf_append, rowsOf_cons]
        show rowsOf m1 ++ (f0.table_row.toList ++ rowsOf m2) = _
        rw [hr]
        rfl
      unfold RowInv at hinv
      rw [he] at hinv
      exact hinv

theorem observe_one_rowInv (now : ℚ) (c : Cycle) (x : It × Obs)
    (hnd : NodupKeys c.store) (hinv : RowInv c.store) :
    RowInv (observe_one now c x).store := by
  cases hl : lookupF c.store x.1 with
  | none =>
    rw [observe_one_eq_new now c x hl]
    show RowInv (c.store ++ [(x.1, File.mkNew x.2.name x.2.pos x.2.size now)])
    unfold RowInv
    rw [rowsOf_append, rowsOf_cons]
    show RowInvList (rowsOf c.store ++ ((none : Option Int).toList ++ rowsOf []))
    show RowInvList (rowsOf c.store ++ [])
    rw [List.append_nil]
    exact hinv
  | some f =>
    by_cases he : f.pos = some x.2.pos ∧ f.size = x.2.size
    · rw [observe_one_eq_same now c x f hl he]
      exact hinv
    · rw [observe_one_eq_update now c x f hl he]
      show RowInv (update_row (setF c.store x.1
        { f with pos := some x.2.pos, size := x.2.size }) x.1 now).1
      apply update_row_rowInv
      · unfold NodupKeys
        rw [keys_setF]
        exact hnd
      · unfold RowInv
        rw [rowsOf_setF_same_row c.store x.1 f
          { f with pos := some x.2.pos, size := x.2.size } hl hnd rfl]
        exact hinv

theorem close_one_rowInv (now : ℚ) (c : Cycle) (j : It)
    (hnd : NodupKeys c.store) (hinv : RowInv c.store) :
    RowInv (close_one now c j).store := by
  cases hl : lookupF c.store j with
  | none =>
    rw [close_one_eq_absent now c j hl]
    exact hinv
  | some f =>
    cases hr : f.table_row with
    | none =>
      rw [close_one_eq_norow now c j f hl hr]
      show RowInv (eraseF c.store j)
      obtain ⟨m1, m2, hm, h1, h2⟩ := keyDecomp c.store j f hl hnd
      rw [hm, eraseF_append, eraseF_not_mem _ _ h1, eraseF_cons_self,
          eraseF_not_mem _ _ h2]
      unfold RowInv
      rw [rowsOf_append]
      have he : rowsOf (m1 ++ (j, f) :: m2) = rowsOf m1 ++ rowsOf m2 := by
        rw [rowsOf_append, rowsOf_cons]
        show rowsOf m1 ++ (f.table_row.toList ++ rowsOf m2) = _
        rw [hr]
        rfl
      unfold RowInv at hinv
      rw [hm, he] at hinv
      exact hinv
    | some row =>
      by_cases hp : f.pos = none
      · rw [close_one_eq_closed now c j f row hl hr hp]
        exact hinv
      · rw [close_one_eq_close now c j f row hl hr hp]
        show RowInv (update_row (setF c.store j { f with pos := none }) j now).1
        apply update_row_rowInv
        · unfold NodupKeys
          rw [keys_setF]
          exact hnd
        · unfold RowInv
          rw [rowsOf_setF_same_row c.store j f { f with pos := none } hl hnd rfl]
          exact hinv

theorem decay_one_rowInv (acc : Store × List Change) (j : It)
    (hnd : NodupKeys acc.1) (hinv : RowInv acc.1) :
    RowInv (decay_one acc j).1 := by
  cases hl : lookupF acc.1 j with
  | none =>
    rw [decay_one_eq_absent acc j hl]
    exact hinv
  | some f =>
    cases hr : f.table_row with
    | none =>
      rw [decay_one_eq_norow acc j f hl hr]
      exact hinv
    | some row =>
      by_cases hc : 0 < f.keep_countdown - 1
      · rw [decay_one_eq_tick acc j f row hl hr hc]
        show RowInv (setF acc.1 j { f with keep_countdown := f.keep_countdown - 1 })
        unfold RowInv
        rw [rowsOf_setF_same_row acc.1 j f
          { f with keep_countdown := f.keep_countdown - 1 } hl hnd rfl]
        exact hinv
      · rw [decay_one_eq_evict acc j f row hl hr hc]
        show RowInv (remove_row (setF acc.1 j
          { f with keep_countdown := f.keep_countdown - 1, table_row := none }) row)
        obtain ⟨m1, m2, hm, h1, h2⟩ := keyDecomp acc.1 j f hl hnd
        rw [hm, setF_append, setF_not_mem _ _ _ h1, setF_cons_self,
            setF_not_mem _ _ _ h2]
        unfold RowInv
        rw [rowsOf_remove_row, rowsOf_append, rowsOf_cons]
        show RowInvList ((rowsOf m1 ++
          (([] : List Int) ++ rowsOf m2)).map (fun r => if row < r then r - 1 else r))
        rw [List.nil_append]
        apply rowInvList_evict
        have he : rowsOf (m1 ++ (j, f) :: m2) = rowsOf m1 ++ row :: rowsOf m2 := by
          rw [rowsOf_append, rowsOf_cons]
          show rowsOf m1 ++ (f.table_row.toList ++ rowsOf m2) = _
          rw [hr]
          rfl
        unfold RowInv at hinv
        rw [hm, he] at hinv
        exact hinv

/-- Retracting one visible row (clearing the slot and compacting) preserves
the row invariant, whatever else changes in the retracted record. -/
theorem rowInv_retract (m : Store) (k : It) (f f4 : File) (row : Int)
    (hl : lookupF m k = some f) (hr : f.table_row = some row)
    (hrow4 : f4.table_row = none)
    (hnd : NodupKeys m) (hinv : RowInv m) :
    RowInv (remove_row (setF m k f4) row) := by
  obtain ⟨m1, m2, hm, h1, h2⟩ := keyDecomp m k f hl hnd
  rw [hm, setF_append, setF_not_mem _ _ _ h1, setF_cons_self, setF_not_mem _ _ _ h2]
  unfold RowInv
  rw [rowsOf_remove_row, rowsOf_append, rowsOf_cons, hrow4]
  show RowInvList ((rowsOf m1 ++
    (([] : List Int) ++ rowsOf m2)).map (fun r => if row < r then r - 1 else r))
  rw [List.nil_append]
  apply rowInvList_evict
  have he : rowsOf (m1 ++ (k, f) :: m2) = rowsOf m1 ++ row :: rowsOf m2 := by
    rw [rowsOf_append, rowsOf_cons]
    show rowsOf m1 ++ (f.table_row.toList ++ rowsOf m2) = _
    rw [hr]
    rfl
  unfold RowInv at hinv
  rw [hm, he] at hinv
  exact hinv

theorem ignore_retract_inv (cmd : String) (m : Store) (k : It)
    (hnd : NodupKeys m) (hinv : RowInv m) :
    NodupKeys (ignore_retract cmd m k) ∧ RowInv (ignore_retract cmd m k) := by
  cases hl : lookupF m k with
  | none =>
    rw [show ignore_retract cmd m k = m by simp only [ignore_retract, hl]]
    exact ⟨hnd, hinv⟩
  | some f =>
    cases hr : f.table_row with
    | none =>
      rw [show ignore_retract cmd m k = m by simp only [ignore_retract, hl, hr]]
      exact ⟨hnd, hinv⟩
    | some row =>
      by_cases hc : k.2.1 = cmd
      · rw [show ignore_retract cmd m k
            = remove_row (setF m k { f with table_row := none }) row by
          simp only [ignore_retract, hl, hr]
          rw [if_pos hc]]
        constructor
        · unfold NodupKeys
          rw [keys_remove_row, keys_setF]
          exact hnd
        · exact rowInv_retract m k f { f with table_row := none } row hl hr rfl hnd hinv
      · rw [show ignore_retract cmd m k = m by
          simp only [ignore_retract, hl, hr]; rw [if_neg hc]]
        exact ⟨hnd, hinv⟩

theorem ignore_fold_inv (cmd : String) (l : List It) (m : Store)
    (h : NodupKeys m ∧ RowInv m) :
    NodupKeys (l.foldl (ignore_retract cmd) m)
      ∧ RowInv (l.foldl (ignore_retract cmd) m) := by
  induction l generalizing m with
  | nil => exact h
  | cons k l ih =>
    rw [List.foldl_cons]
    exact ih _ (ignore_retract_inv cmd m k h.1 h.2)

theorem observe_fold_rowInv (now : ℚ) (l : List (It × Obs)) (c : Cycle)
    (h : NodupKeys c.store ∧ RowInv c.store) :
    NodupKeys (l.foldl (observe_one now) c).store
      ∧ RowInv (l.foldl (observe_one now) c).store := by
  induction l generalizing c with
  | nil => exact h
  | cons x l ih =>
    rw [List.foldl_cons]
    exact ih _ ⟨observe_one_nodupKeys now c x h.1, observe_one_rowInv now c x h.1 h.2⟩

theorem close_fold_rowInv (now : ℚ) (l : List It) (c : Cycle)
    (h : NodupKeys c.store ∧ RowInv c.store) :
    NodupKeys (l.foldl (close_one now) c).store
      ∧ RowInv (l.foldl (close_one now) c).store := by
  induction l generalizing c with
  | nil => exact h
  | cons j l ih =>
    rw [List.foldl_cons]
    exact ih _ ⟨close_one_nodupKeys now c j h.1, close_one_rowInv now c j h.1 h.2⟩

theorem decay_fold_rowInv (l : List It) (acc : Store × List Change)
    (h : NodupKeys acc.1 ∧ RowInv acc.1) :
    NodupKeys (l.foldl decay_one acc).1 ∧ RowInv (l.foldl decay_one acc).1 := by
  induction l generalizing acc with
  | nil => exact h
  | cons j l ih =>
    rw [List.foldl_cons]
    exact ih _ ⟨decay_one_nodupKeys acc j h.1, decay_one_rowInv acc j h.1 h.2⟩

theorem hide_all_rowsOf (s : AppState) :
    rowsOf (hide_all_rows s).proc_files = [] := by
  simp only [hide_all_rows]
  generalize s.proc_files = m
  induction m with
  | nil => rfl
  | cons p m ih =>
    rw [show mapVals (fun f => { f with table_row := none }) (p :: m)
        = (p.1, { p.2 with table_row := none })
            :: mapVals (fun f => { f with table_row := none }) m from rfl]
    rw [rowsOf_cons]
    exact ih

/-- The distinct, bounded rows of the invariant are exactly the contiguous
range `0 .. length-1`. -/
theorem rowInvList_complete (L : List Int) (h : RowInvList L) :
    ∀ i : Nat, i < L.length → (i : Int) ∈ L := by
  intro i hi
  obtain ⟨hnd, hb⟩ := h
  have hcard : L.toFinset.card = L.length := List.toFinset_card_of_nodup hnd
  have hTcard : ((Finset.range L.length).image (fun n : Nat => (n : Int))).card
      = L.length := by
    rw [Finset.card_image_of_injective _ (fun a b hab => by exact_mod_cast hab),
        Finset.card_range]
  have hsub : L.toFinset ⊆ (Finset.range L.length).image (fun n : Nat => (n : Int)) := by
    intro r hr
    have hrL : r ∈ L := List.mem_toFinset.mp hr
    have hbr := hb r hrL
    refine Finset.mem_image.mpr ⟨r.toNat, ?_, ?_⟩
    · rw [Finset.mem_range]
      omega
    · omega
  have heq : L.toFinset = (Finset.range L.length).image (fun n : Nat => (n : Int)) :=
    Finset.eq_of_subset_of_card_le hsub (le_of_eq (hTcard.trans hcard.symm))
  have hmem : (i : Int) ∈ (Finset.range L.length).image (fun n : Nat => (n : Int)) :=
    Finset.mem_image.mpr ⟨i, Finset.mem_range.mpr hi, rfl⟩
  rw [← heq] at hmem
  exact List.mem_toFinset.mp hmem

/-- C9: the assigned table rows of the store are pairwise distinct and form
exactly the contiguous range `0 .. k-1` (`RowInv`, with the completeness of
the range proved from distinctness and boundedness); the invariant holds of
the empty initial store and is preserved by row insertion at the top
(`update_row`), by eviction with index compaction (`decay_one`), by
ignore-retraction (`ignore_command`), by hide-all, and by a whole reconcile
cycle (`update_table`) — under the store's key-uniqueness invariant
(`NodupKeys`, one record per identity). -/
theorem row_slot_invariant :
    RowInv ([] : Store)
    ∧ (∀ m : Store, RowInv m →
        (rowsOf m).Nodup
          ∧ (∀ r ∈ rowsOf m, 0 ≤ r ∧ r < (rowsOf m).length)
          ∧ ∀ i : Nat, i < (rowsOf m).length → (i : Int) ∈ rowsOf m)
    ∧ (∀ (m : Store) (k : It) (now : ℚ), NodupKeys m → RowInv m →
        RowInv (update_row m k now).1)
    ∧ (∀ (acc : Store × List Change) (j : It), NodupKeys acc.1 → RowInv acc.1 →
        RowInv (decay_one acc j).1)
    ∧ (∀ (s : AppState) (cmd : String),
        NodupKeys s.proc_files → RowInv s.proc_files →
        RowInv (ignore_command s cmd).proc_files
          ∧ NodupKeys (ignore_command s cmd).proc_files)
    ∧ (∀ s : AppState, RowInv (hide_all_rows s).proc_files)
    ∧ (∀ (s : AppState) (procs : List Process) (now : ℚ),
        NodupKeys s.proc_files → RowInv s.proc_files →
        RowInv (update_table s procs now).1.proc_files
          ∧ NodupKeys (update_table s procs now).1.proc_files) := by
  refine ⟨⟨List.nodup_nil, ?_⟩, ?_, ?_, ?_, ?_, ?_, ?_⟩
  · intro r hr
    exact absurd hr (List.not_mem_nil r)
  · intro m hinv
    exact ⟨hinv.1, hinv.2, rowInvList_complete (rowsOf m) hinv⟩
  · intro m k now hnd hinv
    exact update_row_rowInv m k now hnd hinv
  · intro acc j hnd hinv
    exact decay_one_rowInv acc j hnd hinv
  · intro s cmd hnd hinv
    have h := ignore_fold_inv cmd (s.proc_files.map Prod.fst) s.proc_files ⟨hnd, hinv⟩
    exact ⟨h.2, h.1⟩
  · intro s
    unfold RowInv
    rw [hide_all_rowsOf]
    exact ⟨List.nodup_nil, fun r hr => absurd hr (List.not_mem_nil r)⟩
  · intro s procs now hnd hinv
    simp only [update_table]
    have h1 := observe_fold_rowInv now (observations s.ignored procs)
      { store := s.proc_files, closedKeys := s.proc_files.map Prod.fst,
        hilite := [], changes := [] } ⟨hnd, hinv⟩
    generalize hC1 : (observations s.ignored procs).foldl (observe_one now)
        { store := s.proc_files, closedKeys := s.proc_files.map Prod.fst,
          hilite := [], changes := [] } = c1 at h1 ⊢
    have h2 := close_fold_rowInv now c1.closedKeys c1 h1
    generalize hC2 : c1.closedKeys.foldl (close_one now) c1 = c2 at h2 ⊢
    have h3 := decay_fold_rowInv (c2.store.map Prod.fst) (c2.store, []) h2
    exact ⟨h3.2, h3.1⟩

/-- Witness for C9 at a concrete input: the invariant (with key uniqueness)
holds after running a reconcile cycle on the concrete two-record-history
state. -/
theorem row_slot_invariant_witness :
    RowInv (update_table exState2 [] 20).1.proc_files
      ∧ NodupKeys (update_table exState2 [] 20).1.proc_files :=
  row_slot_invariant.2.2.2.2.2.2 exState2 [] 20
    (by show (exState2.proc_files.map Prod.fst).Nodup; decide)
    (by show (rowsOf exState2.proc_files).Nodup
          ∧ ∀ r ∈ rowsOf exState2.proc_files,
              0 ≤ r ∧ r < (rowsOf exState2.proc_files).length
        decide)

end QtProgress
